import Mathlib

/-!
Shallow embedding of `checker.py` (SD card → Synology NAS backup checker):
the data model, the local and remote tree scanners, the reconciliation
engine, the remediation copy pass, and the multi-root scan loop of `main`,
together with theorems checking the specification's claims.

Machine conventions of the embedding:
* timestamps and sizes are `Int` (the spec fixes second resolution);
* Python dicts become association lists with position-preserving
  assignment (`dictSet`), so iteration order matches CPython;
* the paginated remote listing transport is an oracle
  `L : String → List Entry` giving each folder's full entry list; a fetch
  at `offset` returns `(L folder).drop offset |>.take 5000`;
* `Ctrl+C` cancellation is a counter `ia : Option Nat`: the interrupt is
  delivered during blocking fetch call number `ia` (fetches are the
  suspension points of the single-threaded scan);
* the unbounded `while` loops carry explicit fuel; exhausted fuel returns
  `none` (the callers below always supply sufficient fuel);
* per-folder transport errors (the inner `except` clause) are not
  modelled: the listing oracle is total.
-/

namespace Checker

/-- One entry of a page returned by the remote listing query
`fs.get_file_list` (name, full path, directory flag, and the
`additional` size/mtime metadata with their `.get(..., 0)` defaults). -/
structure Entry where
  name : String
  path : String
  isdir : Bool
  size : Int
  mtime : Int
  deriving DecidableEq, Repr

/-- Python `str.lower()`, applied character-wise (the filenames involved
are ASCII, where the two agree). -/
def strLower (s : String) : String := ⟨s.data.map Char.toLower⟩

/-- Lexicographic comparison of character lists by code point, the order
Python `<` uses on strings. -/
def charListLt : List Char → List Char → Bool
  | [], [] => false
  | [], _ :: _ => true
  | _ :: _, [] => false
  | a :: as, b :: bs =>
    if a.toNat < b.toNat then true
    else if b.toNat < a.toNat then false
    else charListLt as bs

/-- Python `<=` on strings. -/
def strLe (a b : String) : Bool := !(charListLt b.data a.data)

/-- Python dict assignment `d[k] = v`: overwrite in place when the key is
present (iteration order keeps the original slot), else append. -/
def dictSet (d : List (String × α)) (k : String) (v : α) : List (String × α) :=
  if (d.lookup k).isSome then d.map (fun p => if p.1 = k then (k, v) else p)
  else d ++ [(k, v)]

/-- Python `d1.update(d2)`: set every binding of `d2` in `d1`, in order. -/
def dictUpdate (d e : List (String × α)) : List (String × α) :=
  e.foldl (fun acc p => dictSet acc p.1 p.2) d

/-- Ascending insertion of a string into a sorted list. -/
def insertStr (x : String) : List String → List String
  | [] => [x]
  | y :: l => if strLe x y then x :: y :: l else y :: insertStr x l

/-- Python `sorted` on a list of strings (ascending). -/
def sortStrings (l : List String) : List String := l.foldr insertStr []

/-- `PHOTO_EXTS` of the source. -/
def PHOTO_EXTS : List String := [".jpg", ".jpeg", ".heic", ".heif", ".png", ".tiff", ".tif"]

/-- `RAW_EXTS` of the source. -/
def RAW_EXTS : List String := [".cr2", ".cr3", ".arw", ".nef", ".dng", ".raf", ".orf", ".rw2"]

/-- `VIDEO_EXTS` of the source. -/
def VIDEO_EXTS : List String := [".mp4", ".mov", ".avi", ".mts", ".m4v"]

/-- `SIDECAR_EXTS` of the source. -/
def SIDECAR_EXTS : List String := [".xmp", ".json", ".aae"]

/-- `MEDIA_EXTS = PHOTO_EXTS | RAW_EXTS | VIDEO_EXTS | SIDECAR_EXTS`. -/
def MEDIA_EXTS : List String := PHOTO_EXTS ++ RAW_EXTS ++ VIDEO_EXTS ++ SIDECAR_EXTS

/-- One filesystem object yielded by `Path.rglob` during a local scan.
`ext` carries the library value `path.suffix`, `parent` the value
`str(path.parent)`, `full` the value `str(path)`. -/
structure LFile where
  name : String
  ext : String
  size : Int
  mtime : Int
  parent : String
  full : String
  isFile : Bool
  deriving DecidableEq, Repr

/-- `is_media_file`: the extension, lowercased, is in `MEDIA_EXTS`. -/
def is_media_file (f : LFile) : Bool := MEDIA_EXTS.contains (strLower f.ext)

/-- A record of the source-card index: `(name, size, mtime, path)`. -/
abbrev SdRec := String × Int × Int × String

/-- A record of a NAS or local-backup index: `(size, mtime, folder_path)`. -/
abbrev NasRec := Int × Int × String

/-- One `rglob` iteration of `scan_sd_card`: unconditional assignment
`files[path.name.lower()] = (path.name, size, mtime, path)`. -/
def sdStep (files : List (String × SdRec)) (f : LFile) : List (String × SdRec) :=
  if f.isFile && is_media_file f then
    dictSet files (strLower f.name) (f.name, f.size, f.mtime, f.full)
  else files

/-- `scan_sd_card` over the `rglob` enumeration `fs`: keyed by the
lowercased name, the value is `(path.name, stat.st_size, stat.st_mtime,
path)`. -/
def scan_sd_card (fs : List LFile) : List (String × SdRec) :=
  fs.foldl sdStep []

/-- One `rglob` iteration of `scan_local_folder`: a key is written only
when absent (`if name not in files`). -/
def localStep (files : List (String × NasRec)) (f : LFile) : List (String × NasRec) :=
  if f.isFile && is_media_file f then
    if (files.lookup (strLower f.name)).isSome then files
    else files ++ [(strLower f.name, (f.size, f.mtime, f.parent))]
  else files

/-- `scan_local_folder` over the `rglob` enumeration `fs`: keyed by the
lowercased name, the value is `(size, mtime, str(path.parent))`. -/
def scan_local_folder (fs : List LFile) : List (String × NasRec) :=
  fs.foldl localStep []

/-- A fetch issued against the listing query: `(folder, offset, number of
items returned)`.  Verification instrumentation (ghost state). -/
abbrev Fetch := String × Nat × Nat

/-- Files-and-log part of the remote scanner's state. -/
structure ScanSt where
  files : List (String × NasRec)
  log : List Fetch
  deriving DecidableEq, Repr

/-- Outcome of draining one folder's pages. -/
inductive PageOut where
  | interrupted (st : ScanSt)
  | done (st : ScanSt) (subdirs : List String) (remaining : Option (List String))
  | fuelOut
  deriving DecidableEq, Repr

/-- Handling of one listed entry inside the page loop of
`scan_nas_folder` (source lines 204-225).  The accumulator is
`(files, remaining, subdirs)`.  `tf.getD [] ≠ []` is the truthiness of
the `target_files` dict, `remaining.getD [] ≠ []` the truthiness of the
`remaining` set (both `None` and empty are falsy). -/
def processItem (tf : Option (List (String × Int))) (tol : Int) (folder : String)
    (acc : List (String × NasRec) × Option (List String) × List String) (item : Entry) :
    List (String × NasRec) × Option (List String) × List String :=
  let files := acc.1
  let remaining := acc.2.1
  let subdirs := acc.2.2
  if item.isdir then (files, remaining, subdirs ++ [item.path])
  else
    let name := strLower item.name
    let size := item.size
    let mtime := item.mtime
    if tf.getD [] ≠ [] ∧ ((tf.getD []).lookup name).isSome then
      let target_mtime := ((tf.getD []).lookup name).getD 0
      if (files.lookup name).isNone then
        let files' := dictSet files name (size, mtime, folder)
        if |mtime - target_mtime| ≤ tol ∧ remaining.getD [] ≠ [] then
          (files', remaining.map (·.filter (fun s => !(s == name))), subdirs)
        else (files', remaining, subdirs)
      else
        if |mtime - target_mtime| ≤ tol ∧ remaining.getD [] ≠ [] ∧
            name ∈ remaining.getD [] then
          (dictSet files name (size, mtime, folder),
           remaining.map (·.filter (fun s => !(s == name))), subdirs)
        else (files, remaining, subdirs)
    else
      if (files.lookup name).isNone then
        (dictSet files name (size, mtime, folder), remaining, subdirs)
      else (files, remaining, subdirs)

/-- One folder's paginated listing loop (source lines 185-230): fetch a
page of at most 5000 items at `offset`, process it, stop on a short or
empty page.  `pfuel` bounds the number of fetches; `pageLoop` below
supplies a bound that is always sufficient.  The interrupt fires when the
global fetch counter (`log.length`) reaches `ia`. -/
def pageGo (ia : Option Nat) (tf : Option (List (String × Int))) (tol : Int)
    (folder : String) (entries : List Entry) :
    Nat → Nat → List (String × NasRec) → List Fetch →
    Option (List String) → List String → PageOut
  | 0, _, _, _, _, _ => .fuelOut
  | pfuel + 1, offset, files, log, remaining, subdirs =>
    if ia = some log.length then .interrupted ⟨files, log⟩
    else
      let items := (entries.drop offset).take 5000
      let log' := log ++ [(folder, offset, items.length)]
      if items = [] then .done ⟨files, log'⟩ subdirs remaining
      else
        let st := items.foldl (processItem tf tol folder) (files, remaining, subdirs)
        if items.length < 5000 then .done ⟨st.1, log'⟩ st.2.2 st.2.1
        else pageGo ia tf tol folder entries pfuel (offset + 5000) st.1 log' st.2.1 st.2.2

/-- Drain one folder's pages from offset 0.  The supplied fuel
`entries.length / 5000 + 1` is exactly the number of fetches the loop
can perform on this folder. -/
def pageLoop (ia : Option Nat) (tf : Option (List (String × Int))) (tol : Int)
    (folder : String) (entries : List Entry) (files : List (String × NasRec))
    (log : List Fetch) (remaining : Option (List String)) : PageOut :=
  pageGo ia tf tol folder entries (entries.length / 5000 + 1) 0 files log remaining []

/-- Result of a remote scan.  The source returns `(files,
was_interrupted)`; `log` and `leftover` (the pending work stack at
return) are verification instrumentation. -/
structure NasResult where
  files : List (String × NasRec)
  interrupted : Bool
  log : List Fetch
  leftover : List String
  deriving DecidableEq, Repr

/-- Outer work-stack loop of `scan_nas_folder` (source lines 178-251):
pop a folder off the end of the stack, drain its pages, exit early when
`remaining is not None and len(remaining) == 0`, else push the sorted
subdirectories.  `fuel` bounds the number of folder pops. -/
def scanLoop (L : String → List Entry) (ia : Option Nat)
    (tf : Option (List (String × Int))) (tol : Int) :
    Nat → List String → List (String × NasRec) → List Fetch →
    Option (List String) → Option NasResult
  | 0, _, _, _, _ => none
  | fuel + 1, stack, files, log, remaining =>
    match stack.getLast? with
    | none => some ⟨files, false, log, []⟩
    | some folder =>
      let rest := stack.dropLast
      match pageLoop ia tf tol folder (L folder) files log remaining with
      | .interrupted st => some ⟨st.files, true, st.log, rest⟩
      | .fuelOut => none
      | .done st subdirs remaining' =>
        if remaining' = some [] then some ⟨st.files, false, st.log, rest⟩
        else scanLoop L ia tf tol fuel (rest ++ sortStrings subdirs) st.files st.log remaining'

/-- `scan_nas_folder` (source lines 160-251): scan the tree under
`nasPath`; `remaining = set(target_files.keys()) if target_files else
None`. -/
def scan_nas_folder (L : String → List Entry) (ia : Option Nat) (nasPath : String)
    (tf : Option (List (String × Int))) (tol : Int) (fuel : Nat) : Option NasResult :=
  scanLoop L ia tf tol fuel [nasPath] [] []
    (if tf.getD [] ≠ [] then some ((tf.getD []).map (·.1)) else none)

/-- A record appended to `backed_up_nas` or `backed_up_local`:
`(name, size, mtime, path, folder)`. -/
abbrev BackRec := String × Int × Int × String × String

/-- The per-record body of the `compare_files` loop (source lines
408-423), processing the source entries in iteration order. -/
def compareGo (nas lf : List (String × NasRec)) (tol : Int) :
    List (String × SdRec) → List BackRec × List BackRec × List SdRec
  | [] => ([], [], [])
  | (key, name, size, mtime, path) :: restSd =>
    let res := compareGo nas lf tol restSd
    let nasHit : Option String :=
      match nas.lookup key with
      | some (_, nasMtime, nasFolder) =>
        if |mtime - nasMtime| ≤ tol then some nasFolder else none
      | none => none
    match nasHit with
    | some nasFolder => ((name, size, mtime, path, nasFolder) :: res.1, res.2.1, res.2.2)
    | none =>
      let locHit : Option String :=
        match lf.lookup key with
        | some (_, locMtime, locFolder) =>
          if |mtime - locMtime| ≤ tol then some locFolder else none
        | none => none
      match locHit with
      | some locFolder => (res.1, (name, size, mtime, path, locFolder) :: res.2.1, res.2.2)
      | none => (res.1, res.2.1, (name, size, mtime, path) :: res.2.2)

/-- `compare_files` (source lines 396-425).  `local_files = local_files
or {}` maps `none` (and an empty dict) to `[]`. -/
def compare_files (sd_files : List (String × SdRec)) (nas_files : List (String × NasRec))
    (local_files : Option (List (String × NasRec))) (tol : Int) :
    List BackRec × List BackRec × List SdRec :=
  compareGo nas_files (local_files.getD []) tol sd_files

/-- A file handed to the remediation copy pass: its destination name and
its byte contents. -/
structure CopyFile where
  name : String
  content : String
  deriving DecidableEq, Repr

/-- One iteration of the `copy_files_to_folder` loop over the state
`(copied, skipped, destination contents)`: `if dest.exists(): skipped += 1
else: shutil.copy2(src, dest); copied += 1`. -/
def copyStep (acc : Nat × Nat × List (String × String)) (src : CopyFile) :
    Nat × Nat × List (String × String) :=
  if ((acc.2.2).lookup src.name).isSome then (acc.1, acc.2.1 + 1, acc.2.2)
  else (acc.1 + 1, acc.2.1, acc.2.2 ++ [(src.name, src.content)])

/-- `copy_files_to_folder` (source lines 283-296): the destination folder
is a name → contents map; a name already present is skipped, otherwise
the file is copied.  Returns `(copied, skipped, final destination)`; the
source returns the first two and mutates the third. -/
def copy_files_to_folder (files : List CopyFile) (dest : List (String × String)) :
    Nat × Nat × List (String × String) :=
  files.foldl copyStep (0, 0, dest)

/-- The NAS multi-root scan loop of `main` (source lines 513-531): narrow
the targets to source keys not yet matched within 10 seconds, scan the
root, merge with `nas_files.update(folder_files)`, stop on interruption
or once every source key is matched. -/
def mainNasLoop (L : String → List Entry) (ia : Option Nat)
    (sdMt : List (String × Int)) (fuel : Nat) :
    List String → List (String × NasRec) → Option (List (String × NasRec) × Bool)
  | [], nasFiles => some (nasFiles, false)
  | root :: restRoots, nasFiles =>
    let remainingMt := sdMt.filter (fun kv =>
      match nasFiles.lookup kv.1 with
      | none => true
      | some r => decide (|r.2.1 - kv.2| > 10))
    match scan_nas_folder L ia root (some remainingMt) 10 fuel with
    | none => none
    | some r =>
      let nasFiles' := dictUpdate nasFiles r.files
      if r.interrupted then some (nasFiles', true)
      else if sdMt.all (fun kv =>
          match nasFiles'.lookup kv.1 with
          | some rec => decide (|rec.2.1 - kv.2| ≤ 10)
          | none => false) then some (nasFiles', false)
      else mainNasLoop L ia sdMt fuel restRoots nasFiles'

/-- The candidate test of the reconciliation engine: a key present in the
index whose timestamp is within tolerance yields the owning folder. -/
def hitOf (idx : List (String × NasRec)) (tol : Int) (key : String) (mtime : Int) :
    Option String :=
  match idx.lookup key with
  | some (_, m, f) => if |mtime - m| ≤ tol then some f else none
  | none => none

/-- Classification of one source entry as backed-up-remote. -/
def fNas (nas : List (String × NasRec)) (tol : Int) (e : String × SdRec) : Option BackRec :=
  (hitOf nas tol e.1 e.2.2.2.1).map (fun f => (e.2.1, e.2.2.1, e.2.2.2.1, e.2.2.2.2, f))

/-- Classification of one source entry as backed-up-local. -/
def fLoc (nas lf : List (String × NasRec)) (tol : Int) (e : String × SdRec) :
    Option BackRec :=
  match hitOf nas tol e.1 e.2.2.2.1 with
  | some _ => none
  | none =>
    (hitOf lf tol e.1 e.2.2.2.1).map (fun f => (e.2.1, e.2.2.1, e.2.2.2.1, e.2.2.2.2, f))

/-- Classification of one source entry as missing. -/
def fMiss (nas lf : List (String × NasRec)) (tol : Int) (e : String × SdRec) :
    Option SdRec :=
  if (hitOf nas tol e.1 e.2.2.2.1).isNone ∧ (hitOf lf tol e.1 e.2.2.2.1).isNone then
    some e.2
  else none

/-- Replace every record's size by `g key size`, keeping timestamps and
folders; used to state that sizes play no role in reconciliation. -/
def mapSizes (g : String → Int → Int) (idx : List (String × NasRec)) :
    List (String × NasRec) :=
  idx.map (fun p => (p.1, g p.1 p.2.1, p.2.2.1, p.2.2.2))

/-- The fetch sequence the page loop issues against a folder holding `n`
entries, starting at `offset`: pages of 5000 until a short or empty one. -/
def fetchesOf (folder : String) (n offset : Nat) : List Fetch :=
  (List.range ((n - offset) / 5000 + 1)).map
    (fun i => (folder, offset + 5000 * i, min 5000 (n - offset - 5000 * i)))

/-- The index holds a record for `k` whose timestamp is within `tol` of
`t`. -/
def matchedIn (files : List (String × NasRec)) (k : String) (t tol : Int) : Prop :=
  ∃ s m f, files.lookup k = some (s, m, f) ∧ |m - t| ≤ tol

/-- Remote root with two sibling subdirectories `a` and `b`. -/
def listingC5 : String → List Entry := fun p =>
  if p = "/r" then [⟨"a", "/r/a", true, 0, 0⟩, ⟨"b", "/r/b", true, 0, 0⟩] else []

/-- Two remote roots: the first holds `A.jpg` with the source timestamp,
the second holds `a.jpg` with a timestamp 4000 seconds off plus the
`b.jpg` the second pass still looks for. -/
def listingC9 : String → List Entry := fun p =>
  if p = "/r1" then [⟨"A.jpg", "/r1/A.jpg", false, 1, 1000⟩]
  else if p = "/r2" then
    [⟨"a.jpg", "/r2/a.jpg", false, 2, 5000⟩, ⟨"b.jpg", "/r2/b.jpg", false, 3, 2000⟩]
  else []

/-- A card enumeration with two files whose names fold to the same key. -/
def fsC4 : List LFile :=
  [⟨"A.JPG", ".JPG", 1, 100, "/sd", "/sd/A.JPG", true⟩,
   ⟨"a.jpg", ".jpg", 2, 200, "/sd/sub", "/sd/sub/a.jpg", true⟩]

/-- A single remote file entry, used to build page-boundary folders. -/
def entryC7 : Entry := ⟨"x.jpg", "/r/x.jpg", false, 1, 1⟩

/-- A remote root holding exactly 5000 file entries. -/
def listingC7 : String → List Entry := fun p =>
  if p = "/r" then List.replicate 5000 entryC7 else []

/-- A remote root whose first folder satisfies the single target and
which continues into a subdirectory. -/
def listingC2 : String → List Entry := fun p =>
  if p = "/r" then [⟨"t.jpg", "/r/t.jpg", false, 1, 100⟩, ⟨"d", "/r/d", true, 0, 0⟩]
  else if p = "/r/d" then [⟨"z.jpg", "/r/d/z.jpg", false, 9, 9⟩] else []

/-- Process the single page of at most `f.2.2` entries recorded by the
fetch `f` through the scanner's per-item handler, advancing the
`(files, remaining)` state. -/
def replayP (L : String → List Entry) (tf : Option (List (String × Int))) (tol : Int)
    (acc : List (String × NasRec) × Option (List String)) (f : Fetch) :
    List (String × NasRec) × Option (List String) :=
  let items := ((L f.1).drop f.2.1).take f.2.2
  let r := items.foldl (processItem tf tol f.1) (acc.1, acc.2, [])
  (r.1, r.2.1)

/-- `(files, remaining)` state of `scan_nas_folder` after performing
exactly the fetches recorded in `log`, starting from the scan's initial
state: the index accumulated so far at any point of the traversal. -/
def replay (L : String → List Entry) (tf : Option (List (String × Int))) (tol : Int)
    (log : List Fetch) : List (String × NasRec) × Option (List String) :=
  log.foldl (replayP L tf tol)
    ([], if tf.getD [] ≠ [] then some ((tf.getD []).map (·.1)) else none)

/-! ### Association-list lemmas -/

theorem lookup_cons_eq (k : String) (v : α) (t : List (String × α)) (a : String) :
    ((k, v) :: t).lookup a = if a = k then some v else t.lookup a := by
  by_cases h : a = k
  · subst h
    simp [List.lookup_cons]
  · have hb : (a == k) = false := beq_eq_false_iff_ne.mpr h
    simp [List.lookup_cons, hb, h]

theorem lookup_mem_keys {t : List (String × α)} {a : String} {w : α}
    (h : t.lookup a = some w) : a ∈ t.map Prod.fst := by
  obtain ⟨l₁, l₂, hl, -⟩ := List.lookup_eq_some_iff.mp h
  subst hl
  simp

theorem lookup_append (l₁ l₂ : List (String × α)) (a : String) :
    (l₁ ++ l₂).lookup a =
      if (l₁.lookup a).isSome then l₁.lookup a else l₂.lookup a := by
  induction l₁ with
  | nil => simp
  | cons p t ih =>
    obtain ⟨k, v⟩ := p
    by_cases h : a = k
    · rw [List.cons_append, lookup_cons_eq, if_pos h, lookup_cons_eq, if_pos h]
      simp
    · rw [List.cons_append, lookup_cons_eq, if_neg h, ih, lookup_cons_eq, if_neg h]

theorem lookup_map_replace (d : List (String × α)) (k : String) (v : α) (a : String) :
    (d.map (fun p => if p.1 = k then (k, v) else p)).lookup a =
      if a = k then (if (d.lookup k).isSome then some v else none) else d.lookup a := by
  induction d with
  | nil => simp
  | cons p t ih =>
    obtain ⟨k', v'⟩ := p
    simp only [List.map_cons]
    by_cases h1 : k' = k
    · subst h1
      rw [show (if (k', v').1 = k' then (k', v) else (k', v')) = (k', v) by simp]
      by_cases h2 : a = k'
      · subst h2
        simp [lookup_cons_eq]
      · simp [lookup_cons_eq, h2, ih]
    · rw [show (if (k', v').1 = k then (k, v) else (k', v')) = (k', v') by simp [h1]]
      by_cases h2 : a = k'
      · subst h2
        rw [lookup_cons_eq, if_pos rfl, if_neg h1, lookup_cons_eq, if_pos rfl]
      · by_cases h3 : a = k
        · subst h3
          rw [lookup_cons_eq, if_neg h2, ih, if_pos rfl, if_pos rfl,
            lookup_cons_eq, if_neg h2]
        · rw [lookup_cons_eq, if_neg h2, ih, if_neg h3, if_neg h3,
            lookup_cons_eq, if_neg h2]

theorem lookup_dictSet (d : List (String × α)) (k : String) (v : α) (a : String) :
    (dictSet d k v).lookup a = if a = k then some v else d.lookup a := by
  unfold dictSet
  by_cases h : (d.lookup k).isSome
  · simp [h, lookup_map_replace]
  · rw [if_neg h, lookup_append]
    by_cases h2 : a = k
    · subst h2
      rw [if_neg h, lookup_cons_eq, if_pos rfl, if_pos rfl]
    · by_cases h3 : (d.lookup a).isSome
      · rw [if_pos h3, if_neg h2]
      · have hn : d.lookup a = none := Option.not_isSome_iff_eq_none.mp h3
        rw [if_neg h3, lookup_cons_eq, if_neg h2, if_neg h2, hn]
        rfl

theorem lookup_dictUpdate (d e : List (String × α)) (a : String)
    (h : (e.map Prod.fst).Nodup) :
    (dictUpdate d e).lookup a =
      if (e.lookup a).isSome then e.lookup a else d.lookup a := by
  induction e generalizing d with
  | nil => simp [dictUpdate]
  | cons p t ih =>
    obtain ⟨k, v⟩ := p
    simp only [List.map_cons, List.nodup_cons] at h
    have step : dictUpdate d ((k, v) :: t) = dictUpdate (dictSet d k v) t := rfl
    rw [step, ih _ h.2]
    by_cases h2 : a = k
    · subst h2
      have hnone : t.lookup a = none := by
        cases hl : t.lookup a with
        | none => rfl
        | some w => exact absurd (lookup_mem_keys hl) h.1
      rw [hnone, lookup_dictSet, if_pos rfl, lookup_cons_eq, if_pos rfl]
      simp
    · rw [lookup_dictSet, if_neg h2, lookup_cons_eq, if_neg h2]

/-! ### Reconciliation: characterization and claims C1, C3, C6 -/

theorem compareGo_eq (nas lf : List (String × NasRec)) (tol : Int)
    (sd : List (String × SdRec)) :
    compareGo nas lf tol sd =
      (sd.filterMap (fNas nas tol), sd.filterMap (fLoc nas lf tol),
       sd.filterMap (fMiss nas lf tol)) := by
  induction sd with
  | nil => simp [compareGo]
  | cons e rest ih =>
    obtain ⟨key, name, size, mtime, path⟩ := e
    simp only [compareGo, ih, List.filterMap_cons]
    cases hn : nas.lookup key with
    | some r =>
      obtain ⟨ns, nm, nf⟩ := r
      by_cases ht : |mtime - nm| ≤ tol
      · simp [fNas, fLoc, fMiss, hitOf, hn, ht]
      · cases hl : lf.lookup key with
        | some q =>
          obtain ⟨ls, lm, lff⟩ := q
          by_cases ht2 : |mtime - lm| ≤ tol <;>
            simp [fNas, fLoc, fMiss, hitOf, hn, hl, ht, ht2]
        | none => simp [fNas, fLoc, fMiss, hitOf, hn, hl, ht]
    | none =>
      cases hl : lf.lookup key with
      | some q =>
        obtain ⟨ls, lm, lff⟩ := q
        by_cases ht2 : |mtime - lm| ≤ tol <;>
          simp [fNas, fLoc, fMiss, hitOf, hn, hl, ht2]
      | none => simp [fNas, fLoc, fMiss, hitOf, hn, hl]

theorem exactly_one_class (nas lf : List (String × NasRec)) (tol : Int)
    (e : String × SdRec) :
    ((fNas nas tol e).isSome ∧ fLoc nas lf tol e = none ∧ fMiss nas lf tol e = none) ∨
    (fNas nas tol e = none ∧ (fLoc nas lf tol e).isSome ∧ fMiss nas lf tol e = none) ∨
    (fNas nas tol e = none ∧ fLoc nas lf tol e = none ∧ (fMiss nas lf tol e).isSome) := by
  cases hn : hitOf nas tol e.1 e.2.2.2.1 with
  | some f => exact Or.inl (by simp [fNas, fLoc, fMiss, hn])
  | none =>
    cases hl : hitOf lf tol e.1 e.2.2.2.1 with
    | some f => exact Or.inr (Or.inl (by simp [fNas, fLoc, fMiss, hn, hl]))
    | none => exact Or.inr (Or.inr (by simp [fNas, fLoc, fMiss, hn, hl]))

theorem keys_perm_aux (nas lf : List (String × NasRec)) (tol : Int)
    (sd : List (String × SdRec)) (hinv : ∀ e ∈ sd, strLower e.2.1 = e.1) :
    List.Perm
      ((sd.filterMap (fNas nas tol)).map (fun r => strLower r.1) ++
       ((sd.filterMap (fLoc nas lf tol)).map (fun r => strLower r.1) ++
        (sd.filterMap (fMiss nas lf tol)).map (fun r => strLower r.1)))
      (sd.map Prod.fst) := by
  induction sd with
  | nil => simp
  | cons e rest ih =>
    have hkey : strLower e.2.1 = e.1 := hinv e (List.mem_cons_self e rest)
    have ihr := ih (fun x hx => hinv x (List.mem_cons_of_mem e hx))
    rcases exactly_one_class nas lf tol e with ⟨h1, h2, h3⟩ | ⟨h1, h2, h3⟩ | ⟨h1, h2, h3⟩
    · obtain ⟨r, hr⟩ := Option.isSome_iff_exists.mp h1
      have hrk : strLower r.1 = e.1 := by
        have hre : r.1 = e.2.1 := by
          simp only [fNas] at hr
          cases hh : hitOf nas tol e.1 e.2.2.2.1 with
          | some f => rw [hh] at hr; simp at hr; rw [← hr]
          | none => rw [hh] at hr; simp at hr
        rw [hre, hkey]
      have eN : List.filterMap (fNas nas tol) (e :: rest) =
          r :: List.filterMap (fNas nas tol) rest := by
        simp [List.filterMap_cons, hr]
      have eL : List.filterMap (fLoc nas lf tol) (e :: rest) =
          List.filterMap (fLoc nas lf tol) rest := by
        simp [List.filterMap_cons, h2]
      have eM : List.filterMap (fMiss nas lf tol) (e :: rest) =
          List.filterMap (fMiss nas lf tol) rest := by
        simp [List.filterMap_cons, h3]
      rw [eN, eL, eM, List.map_cons, List.map_cons, hrk, List.cons_append]
      exact List.Perm.cons e.1 ihr
    · obtain ⟨r, hr⟩ := Option.isSome_iff_exists.mp h2
      have hrk : strLower r.1 = e.1 := by
        have hre : r.1 = e.2.1 := by
          simp only [fLoc] at hr
          cases hh : hitOf nas tol e.1 e.2.2.2.1 with
          | some f => rw [hh] at hr; simp at hr
          | none =>
            rw [hh] at hr
            cases hh2 : hitOf lf tol e.1 e.2.2.2.1 with
            | some f => rw [hh2] at hr; simp at hr; rw [← hr]
            | none => rw [hh2] at hr; simp at hr
        rw [hre, hkey]
      have eN : List.filterMap (fNas nas tol) (e :: rest) =
          List.filterMap (fNas nas tol) rest := by
        simp [List.filterMap_cons, h1]
      have eL : List.filterMap (fLoc nas lf tol) (e :: rest) =
          r :: List.filterMap (fLoc nas lf tol) rest := by
        simp [List.filterMap_cons, hr]
      have eM : List.filterMap (fMiss nas lf tol) (e :: rest) =
          List.filterMap (fMiss nas lf tol) rest := by
        simp [List.filterMap_cons, h3]
      rw [eN, eL, eM, List.map_cons, List.map_cons, hrk, List.cons_append]
      exact List.Perm.trans List.perm_middle (List.Perm.cons e.1 ihr)
    · obtain ⟨r, hr⟩ := Option.isSome_iff_exists.mp h3
      have hrk : strLower r.1 = e.1 := by
        have hre : r = e.2 := by
          simp only [fMiss] at hr
          by_cases hc : (hitOf nas tol e.1 e.2.2.2.1).isNone ∧
              (hitOf lf tol e.1 e.2.2.2.1).isNone
          · rw [if_pos hc] at hr; exact (Option.some_inj.mp hr).symm
          · rw [if_neg hc] at hr; simp at hr
        rw [hre, hkey]
      have eN : List.filterMap (fNas nas tol) (e :: rest) =
          List.filterMap (fNas nas tol) rest := by
        simp [List.filterMap_cons, h1]
      have eL : List.filterMap (fLoc nas lf tol) (e :: rest) =
          List.filterMap (fLoc nas lf tol) rest := by
        simp [List.filterMap_cons, h2]
      have eM : List.filterMap (fMiss nas lf tol) (e :: rest) =
          r :: List.filterMap (fMiss nas lf tol) rest := by
        simp [List.filterMap_cons, hr]
      rw [eN, eL, eM, List.map_cons, List.map_cons, hrk]
      refine List.Perm.trans ?_ (List.Perm.cons e.1 ihr)
      exact List.Perm.trans (List.Perm.append_left _ List.perm_middle) List.perm_middle

/-- C1: `compare_files` classifies each source record into exactly one of
backed-up-remote, backed-up-local, or missing: the three returned lists
are pairwise disjoint (by normalized key) and their normalized keys
together are a permutation of the source index's keys. -/
theorem c1_compare_files_partitions
    (sd : List (String × SdRec)) (nas : List (String × NasRec))
    (lf : Option (List (String × NasRec))) (tol : Int)
    (bn bl : List BackRec) (ms : List SdRec)
    (heq : compare_files sd nas lf tol = (bn, bl, ms))
    (hkeys : (sd.map Prod.fst).Nodup)
    (hinv : ∀ e ∈ sd, strLower e.2.1 = e.1) :
    List.Perm
      (bn.map (fun r => strLower r.1) ++
       (bl.map (fun r => strLower r.1) ++ ms.map (fun r => strLower r.1)))
      (sd.map Prod.fst) ∧
    List.Disjoint (bn.map (fun r => strLower r.1)) (bl.map (fun r => strLower r.1)) ∧
    List.Disjoint (bn.map (fun r => strLower r.1)) (ms.map (fun r => strLower r.1)) ∧
    List.Disjoint (bl.map (fun r => strLower r.1)) (ms.map (fun r => strLower r.1)) := by
  have hch : compare_files sd nas lf tol =
      (sd.filterMap (fNas nas tol), sd.filterMap (fLoc nas (lf.getD []) tol),
       sd.filterMap (fMiss nas (lf.getD []) tol)) := compareGo_eq _ _ _ _
  rw [heq] at hch
  have h1 : bn = sd.filterMap (fNas nas tol) := congrArg Prod.fst hch
  have h2 : bl = sd.filterMap (fLoc nas (lf.getD []) tol) :=
    congrArg (fun t => t.2.1) hch
  have h3 : ms = sd.filterMap (fMiss nas (lf.getD []) tol) :=
    congrArg (fun t => t.2.2) hch
  subst h1; subst h2; subst h3
  have hperm := keys_perm_aux nas (lf.getD []) tol sd hinv
  refine ⟨hperm, ?_, ?_, ?_⟩ <;>
  · have hnd : (sd.map Prod.fst).Nodup := hkeys
    have := (hperm.symm).nodup hnd
    rw [List.nodup_append] at this
    obtain ⟨hA, hBC, hABC⟩ := this
    rw [List.nodup_append] at hBC
    obtain ⟨hB, hC, hBCd⟩ := hBC
    rw [List.disjoint_append_right] at hABC
    first
    | exact hABC.1
    | exact hABC.2
    | exact hBCd

/-- C1 witness at a concrete one-record index. -/
theorem c1_compare_files_partitions_witness :
    List.Perm
      (([("A.jpg", 1, 100, "/p", "/nas")] : List BackRec).map (fun r => strLower r.1) ++
       (([] : List BackRec).map (fun r => strLower r.1) ++
        ([] : List SdRec).map (fun r => strLower r.1)))
      (([("a.jpg", ("A.jpg", 1, 100, "/p"))] : List (String × SdRec)).map Prod.fst) ∧
    List.Disjoint (([("A.jpg", 1, 100, "/p", "/nas")] : List BackRec).map
        (fun r => strLower r.1))
      (([] : List BackRec).map (fun r => strLower r.1)) ∧
    List.Disjoint (([("A.jpg", 1, 100, "/p", "/nas")] : List BackRec).map
        (fun r => strLower r.1))
      (([] : List SdRec).map (fun r => strLower r.1)) ∧
    List.Disjoint (([] : List BackRec).map (fun r => strLower r.1))
      (([] : List SdRec).map (fun r => strLower r.1)) :=
  c1_compare_files_partitions
    [("a.jpg", ("A.jpg", 1, 100, "/p"))] [("a.jpg", (1, 100, "/nas"))] none 10
    [("A.jpg", 1, 100, "/p", "/nas")] [] [] (by rfl) (by decide) (by decide)

theorem lookup_mapSizes (g : String → Int → Int) (idx : List (String × NasRec))
    (k : String) :
    (mapSizes g idx).lookup k =
      (idx.lookup k).map (fun r => (g k r.1, r.2.1, r.2.2)) := by
  induction idx with
  | nil => rfl
  | cons p t ih =>
    obtain ⟨k', s, m, f⟩ := p
    by_cases h : k = k'
    · subst h
      simp [mapSizes, lookup_cons_eq]
    · simp [mapSizes, lookup_cons_eq, h] at ih ⊢
      exact ih

theorem hitOf_mapSizes (g : String → Int → Int) (idx : List (String × NasRec))
    (tol : Int) (k : String) (m : Int) :
    hitOf (mapSizes g idx) tol k m = hitOf idx tol k m := by
  unfold hitOf
  rw [lookup_mapSizes]
  cases idx.lookup k with
  | none => rfl
  | some r => rfl

/-- C3 counterexample: a source record whose size (100) differs from the
candidate's (999) while the timestamps agree exactly is classified
backed-up-remote — a size mismatch alone does not force the record to be
treated as missing, contrary to the claim. -/
theorem c3_counterexample :
    compare_files [("a.jpg", ("a.jpg", 100, 1000, "/sd/a.jpg"))]
        [("a.jpg", (999, 1000, "/nas/x"))] none 10 =
      ([("a.jpg", 100, 1000, "/sd/a.jpg", "/nas/x")], [], []) ∧
    (100 : Int) ≠ 999 :=
  ⟨by rfl, by decide⟩

/-- C3 (amended): reconciliation compares timestamps only.  A name match
with timestamp outside tolerance is treated identically to no match at
all (the record lands in `missing`, with no distinct wrong-version
outcome), and candidate sizes play no role: replacing every candidate
size by anything leaves the result unchanged. -/
theorem c3_timestamp_only_matching :
    (∀ (sd : List (String × SdRec)) (nas : List (String × NasRec))
        (lf : Option (List (String × NasRec))) (tol : Int),
      compare_files sd nas lf tol =
        (sd.filterMap (fNas nas tol), sd.filterMap (fLoc nas (lf.getD []) tol),
         sd.filterMap (fMiss nas (lf.getD []) tol))) ∧
    (∀ (sd : List (String × SdRec)) (nas : List (String × NasRec))
        (lf : Option (List (String × NasRec))) (tol : Int)
        (gN gL : String → Int → Int),
      compare_files sd (mapSizes gN nas) (lf.map (mapSizes gL)) tol =
        compare_files sd nas lf tol) := by
  constructor
  · intro sd nas lf tol
    exact compareGo_eq nas (lf.getD []) tol sd
  · intro sd nas lf tol gN gL
    have hgetD : (lf.map (mapSizes gL)).getD [] = mapSizes gL (lf.getD []) := by
      cases lf <;> rfl
    have hN : fNas (mapSizes gN nas) tol = fNas nas tol := by
      funext e
      simp [fNas, hitOf_mapSizes]
    have hL : fLoc (mapSizes gN nas) (mapSizes gL (lf.getD [])) tol =
        fLoc nas (lf.getD []) tol := by
      funext e
      simp [fLoc, hitOf_mapSizes]
    have hM : fMiss (mapSizes gN nas) (mapSizes gL (lf.getD [])) tol =
        fMiss nas (lf.getD []) tol := by
      funext e
      simp [fMiss, hitOf_mapSizes]
    unfold compare_files
    rw [compareGo_eq, compareGo_eq, hgetD, hN, hL, hM]

/-- C6: two records match iff the absolute timestamp difference is at
most the tolerance — equality with the tolerance matches, tolerance + 1
does not — both in `compare_files` and in the remote scanner's target
check (`processItem`). -/
theorem c6_tolerance_boundary (tol T T' s₁ s₂ : Int)
    (key name path folder nm pp : String) :
    ((|T - T'| ≤ tol) ↔
      compare_files [(key, (name, s₁, T, path))] [(key, (s₂, T', folder))] none tol =
        ([(name, s₁, T, path, folder)], [], [])) ∧
    ((¬|T - T'| ≤ tol) ↔
      compare_files [(key, (name, s₁, T, path))] [(key, (s₂, T', folder))] none tol =
        ([], [], [(name, s₁, T, path)])) ∧
    (|T - T'| = tol →
      compare_files [(key, (name, s₁, T, path))] [(key, (s₂, T', folder))] none tol =
        ([(name, s₁, T, path, folder)], [], [])) ∧
    (|T - T'| = tol + 1 →
      compare_files [(key, (name, s₁, T, path))] [(key, (s₂, T', folder))] none tol =
        ([], [], [(name, s₁, T, path)])) ∧
    (((processItem (some [(strLower nm, T)]) tol folder ([], some [strLower nm], [])
        ⟨nm, pp, false, s₂, T'⟩).2.1 = some []) ↔ |T - T'| ≤ tol) ∧
    (|T - T'| = tol + 1 →
      (processItem (some [(strLower nm, T)]) tol folder ([], some [strLower nm], [])
        ⟨nm, pp, false, s₂, T'⟩).2.1 = some [strLower nm]) := by
  have hc : compare_files [(key, (name, s₁, T, path))] [(key, (s₂, T', folder))] none tol =
      if |T - T'| ≤ tol then ([(name, s₁, T, path, folder)], [], [])
      else ([], [], [(name, s₁, T, path)]) := by
    by_cases h : |T - T'| ≤ tol <;>
      simp [compare_files, compareGo, lookup_cons_eq, h]
  have hp : (processItem (some [(strLower nm, T)]) tol folder ([], some [strLower nm], [])
      ⟨nm, pp, false, s₂, T'⟩).2.1 =
      if |T' - T| ≤ tol then some [] else some [strLower nm] := by
    by_cases h : |T' - T| ≤ tol <;>
      simp [processItem, lookup_cons_eq, h]
  have habs : |T' - T| = |T - T'| := abs_sub_comm T' T
  rw [habs] at hp
  refine ⟨?_, ?_, ?_, ?_, ?_, ?_⟩
  · rw [hc]
    by_cases h : |T - T'| ≤ tol <;> simp [h]
  · rw [hc]
    by_cases h : |T - T'| ≤ tol <;> simp [h]
  · intro h
    rw [hc, if_pos (le_of_eq h)]
  · intro h
    have hnot : ¬|T - T'| ≤ tol := by rw [h]; omega
    rw [hc, if_neg hnot]
  · rw [hp]
    by_cases h : |T - T'| ≤ tol <;> simp [h]
  · intro h
    have hnot : ¬|T - T'| ≤ tol := by rw [h]; omega
    rw [hp, if_neg hnot]

/-- C6 witness: tolerance 10, timestamp differences of exactly 10 and
exactly 11. -/
theorem c6_tolerance_boundary_witness :
    compare_files [("a.jpg", ("a.jpg", 1, 100, "/p"))] [("a.jpg", (1, 110, "/n"))] none 10 =
      ([("a.jpg", 1, 100, "/p", "/n")], [], []) ∧
    compare_files [("a.jpg", ("a.jpg", 1, 111, "/p"))] [("a.jpg", (1, 100, "/n"))] none 10 =
      ([], [], [("a.jpg", 1, 111, "/p")]) :=
  ⟨(c6_tolerance_boundary 10 100 110 1 1 "a.jpg" "a.jpg" "/p" "/n" "x" "/q").2.2.1
      (by decide),
   (c6_tolerance_boundary 10 111 100 1 1 "a.jpg" "a.jpg" "/p" "/n" "x" "/q").2.2.2.1
      (by decide)⟩

/-! ### Remediation copy pass: claim C8 -/

theorem copyStep_hit {acc : Nat × Nat × List (String × String)} {src : CopyFile}
    (h : ((acc.2.2).lookup src.name).isSome) :
    copyStep acc src = (acc.1, acc.2.1 + 1, acc.2.2) := by
  unfold copyStep
  rw [if_pos h]

theorem copyStep_miss {acc : Nat × Nat × List (String × String)} {src : CopyFile}
    (h : (acc.2.2).lookup src.name = none) :
    copyStep acc src = (acc.1 + 1, acc.2.1, acc.2.2 ++ [(src.name, src.content)]) := by
  unfold copyStep
  rw [if_neg (by simp [h])]

theorem copy_fold_count (files : List CopyFile) :
    ∀ acc : Nat × Nat × List (String × String),
      (files.foldl copyStep acc).1 + (files.foldl copyStep acc).2.1 =
        acc.1 + acc.2.1 + files.length := by
  induction files with
  | nil => intro acc; simp
  | cons f t ih =>
    intro acc
    rw [List.foldl_cons, ih (copyStep acc f)]
    by_cases h : ((acc.2.2).lookup f.name).isSome
    · rw [copyStep_hit h]
      simp
      omega
    · rw [copyStep_miss (Option.not_isSome_iff_eq_none.mp h)]
      simp
      omega

theorem copy_fold_preserves (files : List CopyFile) :
    ∀ (acc : Nat × Nat × List (String × String)) (k : String),
      ((acc.2.2).lookup k).isSome →
      (files.foldl copyStep acc).2.2.lookup k = acc.2.2.lookup k := by
  induction files with
  | nil => intro acc k _; rfl
  | cons f t ih =>
    intro acc k hk
    rw [List.foldl_cons]
    by_cases h : ((acc.2.2).lookup f.name).isSome
    · rw [copyStep_hit h]
      exact ih _ k hk
    · rw [copyStep_miss (Option.not_isSome_iff_eq_none.mp h)]
      have happ : (acc.2.2 ++ [(f.name, f.content)]).lookup k = acc.2.2.lookup k := by
        rw [lookup_append, if_pos hk]
      have hsome : (((acc.1 + 1, acc.2.1, acc.2.2 ++ [(f.name, f.content)]) :
          Nat × Nat × List (String × String)).2.2.lookup k).isSome := by
        simpa [happ] using hk
      rw [ih _ k hsome]
      exact happ

theorem copy_fold_covers (files : List CopyFile) :
    ∀ (acc : Nat × Nat × List (String × String)) (src : CopyFile), src ∈ files →
      (((files.foldl copyStep acc).2.2).lookup src.name).isSome := by
  induction files with
  | nil => intro acc src h; cases h
  | cons f t ih =>
    intro acc src hmem
    rw [List.foldl_cons]
    rcases List.mem_cons.mp hmem with hsrc | hsrc
    · subst hsrc
      have hsome : (((copyStep acc src).2.2).lookup src.name).isSome := by
        by_cases h : ((acc.2.2).lookup src.name).isSome
        · rw [copyStep_hit h]; exact h
        · have hne : (acc.2.2.lookup src.name) = none :=
            Option.not_isSome_iff_eq_none.mp h
          rw [copyStep_miss hne]
          simp [lookup_append, hne, lookup_cons_eq]
      have hpres := copy_fold_preserves t (copyStep acc src) src.name hsome
      rw [hpres]
      exact hsome
    · exact ih _ src hsrc

/-- C8: the copy pass skips names already present at the destination
(the stored contents are unchanged and only the skipped count grows),
copies files not yet present (the copied count grows and the file
appears at the destination), and `copied + skipped` accounts for every
input file. -/
theorem c8_copy_skip_existing :
    (∀ (files : List CopyFile) (dest : List (String × String)),
      (copy_files_to_folder files dest).1 + (copy_files_to_folder files dest).2.1 =
        files.length) ∧
    (∀ (files : List CopyFile) (dest : List (String × String)) (k : String),
      ((dest.lookup k).isSome) →
      (copy_files_to_folder files dest).2.2.lookup k = dest.lookup k) ∧
    (∀ (files : List CopyFile) (dest : List (String × String)) (src : CopyFile),
      src ∈ files →
      (((copy_files_to_folder files dest).2.2).lookup src.name).isSome) ∧
    (∀ (f : CopyFile) (dest : List (String × String)),
      ((dest.lookup f.name).isSome) → copy_files_to_folder [f] dest = (0, 1, dest)) ∧
    (∀ (f : CopyFile) (dest : List (String × String)),
      dest.lookup f.name = none →
      copy_files_to_folder [f] dest = (1, 0, dest ++ [(f.name, f.content)])) := by
  refine ⟨?_, ?_, ?_, ?_, ?_⟩
  · intro files dest
    have := copy_fold_count files (0, 0, dest)
    simpa using this
  · intro files dest k hk
    exact copy_fold_preserves files (0, 0, dest) k hk
  · intro files dest src hmem
    exact copy_fold_covers files (0, 0, dest) src hmem
  · intro f dest h
    simp [copy_files_to_folder, copyStep, h]
  · intro f dest h
    simp [copy_files_to_folder, copyStep, h]

/-- C8 witness: a destination already holding `a.jpg` skips it; a new
file `b.jpg` is copied and appears at the destination. -/
theorem c8_copy_skip_existing_witness :
    copy_files_to_folder [⟨"a.jpg", "new"⟩] [("a.jpg", "old")] =
      (0, 1, [("a.jpg", "old")]) ∧
    copy_files_to_folder [⟨"b.jpg", "new"⟩] [("a.jpg", "old")] =
      (1, 0, [("a.jpg", "old"), ("b.jpg", "new")]) :=
  ⟨c8_copy_skip_existing.2.2.2.1 ⟨"a.jpg", "new"⟩ [("a.jpg", "old")] (by decide),
   c8_copy_skip_existing.2.2.2.2 ⟨"b.jpg", "new"⟩ [("a.jpg", "old")] (by decide)⟩

/-! ### Duplicate-key policy of the scanners: claim C4 -/

theorem processItem_none_files (tol : Int) (folder : String)
    (acc : List (String × NasRec) × Option (List String) × List String) (e : Entry) :
    (processItem none tol folder acc e).1 =
      if e.isdir then acc.1
      else if ((acc.1).lookup (strLower e.name)).isNone then
        dictSet acc.1 (strLower e.name) (e.size, e.mtime, folder)
      else acc.1 := by
  unfold processItem
  by_cases hd : e.isdir = true
  · simp [hd]
  · by_cases hpres : ((acc.1).lookup (strLower e.name)).isNone <;> simp [hd, hpres]

theorem processItem_subdirs (tf : Option (List (String × Int))) (tol : Int)
    (folder : String)
    (acc : List (String × NasRec) × Option (List String) × List String) (e : Entry) :
    (processItem tf tol folder acc e).2.2 =
      if e.isdir then acc.2.2 ++ [e.path] else acc.2.2 := by
  unfold processItem
  by_cases hd : e.isdir = true
  · simp [hd]
  · simp only [hd, if_false, Bool.false_eq_true]
    split_ifs <;> rfl

theorem sd_fold_lookup (fs : List LFile) :
    ∀ (acc : List (String × SdRec)) (k : String),
      (fs.foldl sdStep acc).lookup k =
        match fs.reverse.find?
            (fun f => f.isFile && is_media_file f && (strLower f.name == k)) with
        | some f => some (f.name, f.size, f.mtime, f.full)
        | none => acc.lookup k := by
  induction fs with
  | nil => intro acc k; rfl
  | cons f t ih =>
    intro acc k
    rw [List.foldl_cons, ih (sdStep acc f) k, List.reverse_cons, List.find?_append]
    cases hf : t.reverse.find?
        (fun f => f.isFile && is_media_file f && (strLower f.name == k)) with
    | some g => rfl
    | none =>
      simp only [Option.none_or]
      by_cases hm : (f.isFile && is_media_file f) = true
      · by_cases hk : strLower f.name = k
        · rw [List.find?_cons_of_pos _ (by simp [hm, hk])]
          unfold sdStep
          rw [if_pos hm, lookup_dictSet, if_pos hk.symm]
        · rw [List.find?_cons_of_neg _ (by simp [hk]), List.find?_nil]
          unfold sdStep
          rw [if_pos hm, lookup_dictSet, if_neg (fun hh => hk hh.symm)]
      · have hpf : ¬(f.isFile && is_media_file f && (strLower f.name == k)) = true := by
          simp only [Bool.and_eq_true] at hm ⊢
          intro hcontra
          exact hm hcontra.1
        rw [@List.find?_cons_of_neg LFile
          (fun f => f.isFile && is_media_file f && (strLower f.name == k)) f [] hpf,
          List.find?_nil]
        unfold sdStep
        rw [if_neg hm]

theorem local_fold_lookup (fs : List LFile) :
    ∀ (acc : List (String × NasRec)) (k : String),
      (fs.foldl localStep acc).lookup k =
        if (acc.lookup k).isSome then acc.lookup k
        else
          (fs.find? (fun f => f.isFile && is_media_file f && (strLower f.name == k))).map
            (fun f => (f.size, f.mtime, f.parent)) := by
  induction fs with
  | nil =>
    intro acc k
    by_cases h : (acc.lookup k).isSome
    · rw [List.foldl_nil, if_pos h]
    · rw [List.foldl_nil, if_neg h, List.find?_nil,
        Option.map_none', (Option.not_isSome_iff_eq_none.mp h)]
  | cons f t ih =>
    intro acc k
    rw [List.foldl_cons, ih (localStep acc f) k]
    by_cases hm : (f.isFile && is_media_file f) = true
    · by_cases hk : strLower f.name = k
      · rw [List.find?_cons_of_pos _ (by simp [hm, hk])]
        by_cases hacc : (acc.lookup k).isSome
        · have heq : localStep acc f = acc := by
            unfold localStep
            rw [if_pos hm, if_pos (by rw [hk]; exact hacc)]
          rw [heq]
          simp [hacc]
        · have hnone : acc.lookup k = none := Option.not_isSome_iff_eq_none.mp hacc
          have heq : localStep acc f =
              acc ++ [(strLower f.name, (f.size, f.mtime, f.parent))] := by
            unfold localStep
            rw [if_pos hm, if_neg (by rw [hk]; exact hacc)]
          have happ : (acc ++ [(strLower f.name, (f.size, f.mtime, f.parent))]).lookup k =
              some (f.size, f.mtime, f.parent) := by
            rw [lookup_append, if_neg hacc, lookup_cons_eq, if_pos hk.symm]
          rw [heq, happ, hnone]
          simp
      · rw [List.find?_cons_of_neg _ (by simp [hk])]
        have hsame : (localStep acc f).lookup k = acc.lookup k := by
          unfold localStep
          rw [if_pos hm]
          by_cases hpres : (acc.lookup (strLower f.name)).isSome
          · rw [if_pos hpres]
          · rw [if_neg hpres, lookup_append]
            by_cases hacc : (acc.lookup k).isSome
            · rw [if_pos hacc]
            · rw [if_neg hacc, lookup_cons_eq, if_neg (fun hh => hk hh.symm),
                Option.not_isSome_iff_eq_none.mp hacc]
              rfl
        rw [hsame]
    · have hpf : ¬(f.isFile && is_media_file f && (strLower f.name == k)) = true := by
        simp only [Bool.and_eq_true] at hm ⊢
        intro hcontra
        exact hm hcontra.1
      have heq : localStep acc f = acc := by
        unfold localStep
        rw [if_neg hm]
      rw [heq, @List.find?_cons_of_neg LFile
        (fun f => f.isFile && is_media_file f && (strLower f.name == k)) f t hpf]

theorem nas_items_first_wins (tol : Int) (folder : String) (items : List Entry) :
    ∀ (acc : List (String × NasRec) × Option (List String) × List String) (k : String),
      ((items.foldl (processItem none tol folder) acc).1).lookup k =
        if ((acc.1).lookup k).isSome then (acc.1).lookup k
        else
          (items.find? (fun e => !e.isdir && (strLower e.name == k))).map
            (fun e => (e.size, e.mtime, folder)) := by
  induction items with
  | nil =>
    intro acc k
    by_cases h : ((acc.1).lookup k).isSome
    · rw [List.foldl_nil, if_pos h]
    · rw [List.foldl_nil, if_neg h, List.find?_nil,
        Option.map_none', (Option.not_isSome_iff_eq_none.mp h)]
  | cons e t ih =>
    intro acc k
    rw [List.foldl_cons, ih (processItem none tol folder acc e) k]
    by_cases hd : e.isdir = true
    · have heq : (processItem none tol folder acc e).1 = acc.1 := by
        rw [processItem_none_files, if_pos hd]
      rw [heq, List.find?_cons_of_neg _ (by simp [hd])]
    · by_cases hk : strLower e.name = k
      · rw [List.find?_cons_of_pos _ (by simp [hd, hk])]
        by_cases hacc : ((acc.1).lookup k).isSome
        · have heq : (processItem none tol folder acc e).1 = acc.1 := by
            rw [processItem_none_files, if_neg hd, if_neg (by
              rw [hk]
              obtain ⟨w, hw⟩ := Option.isSome_iff_exists.mp hacc
              rw [hw]
              simp)]
          rw [heq]
          simp [hacc]
        · have hnone : (acc.1).lookup k = none := Option.not_isSome_iff_eq_none.mp hacc
          have heq : (processItem none tol folder acc e).1 =
              dictSet acc.1 (strLower e.name) (e.size, e.mtime, folder) := by
            rw [processItem_none_files, if_neg hd, if_pos (by rw [hk, hnone]; rfl)]
          have hlk : (dictSet acc.1 (strLower e.name) (e.size, e.mtime, folder)).lookup k =
              some (e.size, e.mtime, folder) := by
            rw [lookup_dictSet, if_pos hk.symm]
          rw [heq, hlk, hnone]
          simp
      · rw [List.find?_cons_of_neg _ (by simp [hk])]
        have hsame : ((processItem none tol folder acc e).1).lookup k =
            (acc.1).lookup k := by
          rw [processItem_none_files, if_neg hd]
          by_cases hpres : ((acc.1).lookup (strLower e.name)).isNone
          · rw [if_pos hpres, lookup_dictSet, if_neg (fun hh => hk hh.symm)]
          · rw [if_neg hpres]
        rw [hsame]

/-- C4 counterexample: on a source card holding `A.JPG` (seen first) and
`a.jpg` (seen later) under the same normalized key, `scan_sd_card` keeps
the later record, not the first-seen one. -/
theorem c4_counterexample :
    scan_sd_card fsC4 = [("a.jpg", ("a.jpg", 2, 200, "/sd/sub/a.jpg"))] ∧
    (("a.jpg", (2 : Int), (200 : Int), "/sd/sub/a.jpg") : SdRec) ≠
      ("A.JPG", (1 : Int), (100 : Int), "/sd/A.JPG") := by
  exact ⟨by decide, by decide⟩

/-- C4 (amended): the local-backup scan keeps the first-seen record for a
normalized key and silently ignores later duplicates, and so does the
remote scanner's recording step for files outside the target set; the
source-card scan instead overwrites, keeping the last-seen record. -/
theorem c4_first_seen_wins_except_source_card :
    (∀ (fs : List LFile) (k : String),
      (scan_local_folder fs).lookup k =
        (fs.find? (fun f => f.isFile && is_media_file f && (strLower f.name == k))).map
          (fun f => (f.size, f.mtime, f.parent))) ∧
    (∀ (tol : Int) (folder : String) (items : List Entry)
        (rem : Option (List String)) (sds : List String) (k : String),
      ((items.foldl (processItem none tol folder) ([], rem, sds)).1).lookup k =
        (items.find? (fun e => !e.isdir && (strLower e.name == k))).map
          (fun e => (e.size, e.mtime, folder))) ∧
    (∀ (fs : List LFile) (k : String),
      (scan_sd_card fs).lookup k =
        (fs.reverse.find?
            (fun f => f.isFile && is_media_file f && (strLower f.name == k))).map
          (fun f => (f.name, f.size, f.mtime, f.full))) := by
  refine ⟨?_, ?_, ?_⟩
  · intro fs k
    rw [scan_local_folder, local_fold_lookup fs [] k]
    rfl
  · intro tol folder items rem sds k
    rw [nas_items_first_wins tol folder items ([], rem, sds) k]
    rfl
  · intro fs k
    rw [scan_sd_card, sd_fold_lookup fs [] k]
    cases fs.reverse.find?
        (fun f => f.isFile && is_media_file f && (strLower f.name == k)) with
    | some g => rfl
    | none => rfl

/-! ### Remote scanner: basic step lemmas -/

theorem processItem_rem_none (tf : Option (List (String × Int))) (tol : Int)
    (folder : String)
    (acc : List (String × NasRec) × Option (List String) × List String) (e : Entry)
    (h : acc.2.1 = none) : (processItem tf tol folder acc e).2.1 = none := by
  obtain ⟨files, rem, sds⟩ := acc
  have h' : rem = none := h
  subst h'
  simp only [processItem]
  split_ifs <;> rfl

theorem processItem_none_rem (tol : Int) (folder : String)
    (acc : List (String × NasRec) × Option (List String) × List String) (e : Entry) :
    (processItem none tol folder acc e).2.1 = acc.2.1 := by
  obtain ⟨files, rem, sds⟩ := acc
  simp only [processItem]
  split_ifs <;> first | rfl | simp_all

theorem processItem_congr (tf₁ tf₂ : Option (List (String × Int))) (tol : Int)
    (folder : String) (h : tf₁.getD [] = tf₂.getD [])
    (acc : List (String × NasRec) × Option (List String) × List String) (e : Entry) :
    processItem tf₁ tol folder acc e = processItem tf₂ tol folder acc e := by
  unfold processItem
  rw [h]

theorem pageGo_congr (ia : Option Nat) (tf₁ tf₂ : Option (List (String × Int)))
    (tol : Int) (folder : String) (entries : List Entry)
    (h : tf₁.getD [] = tf₂.getD []) :
    ∀ (pf off : Nat) (files : List (String × NasRec)) (log : List Fetch)
      (rem : Option (List String)) (sds : List String),
      pageGo ia tf₁ tol folder entries pf off files log rem sds =
        pageGo ia tf₂ tol folder entries pf off files log rem sds := by
  intro pf
  induction pf with
  | zero => intro off files log rem sds; rfl
  | succ n ih =>
    intro off files log rem sds
    have hfold : ∀ (items : List Entry) acc,
        items.foldl (processItem tf₁ tol folder) acc =
          items.foldl (processItem tf₂ tol folder) acc := by
      intro items
      induction items with
      | nil => intro acc; rfl
      | cons e t iht =>
        intro acc
        rw [List.foldl_cons, List.foldl_cons, processItem_congr tf₁ tf₂ tol folder h,
          iht]
    simp only [pageGo, hfold, ih]

theorem scanLoop_congr (L : String → List Entry) (ia : Option Nat)
    (tf₁ tf₂ : Option (List (String × Int))) (tol : Int)
    (h : tf₁.getD [] = tf₂.getD []) :
    ∀ (fuel : Nat) (stack : List String) (files : List (String × NasRec))
      (log : List Fetch) (rem : Option (List String)),
      scanLoop L ia tf₁ tol fuel stack files log rem =
        scanLoop L ia tf₂ tol fuel stack files log rem := by
  intro fuel
  induction fuel with
  | zero => intro stack files log rem; rfl
  | succ n ih =>
    intro stack files log rem
    cases hl : stack.getLast? with
    | none => simp only [scanLoop, hl]
    | some folder =>
      simp only [scanLoop, pageLoop, hl,
        pageGo_congr ia tf₁ tf₂ tol folder (L folder) h, ih]

/-- C10: calling the remote scanner with an empty (but present) targets
mapping behaves identically to supplying no targets: the `remaining` set
is initialized to `None` either way, and the whole scan computes the
same result. -/
theorem c10_empty_targets_like_none (L : String → List Entry) (ia : Option Nat)
    (nasPath : String) (tol : Int) (fuel : Nat) :
    scan_nas_folder L ia nasPath (some []) tol fuel =
      scan_nas_folder L ia nasPath none tol fuel := by
  unfold scan_nas_folder
  rw [scanLoop_congr L ia (some []) none tol rfl]
  simp

/-! ### Remote scanner: interruption and pagination lemmas -/

theorem pageGo_interrupted_ia (ia : Option Nat) (tf : Option (List (String × Int)))
    (tol : Int) (folder : String) (entries : List Entry) :
    ∀ (pf off : Nat) (files : List (String × NasRec)) (log : List Fetch)
      (rem : Option (List String)) (sds : List String) (st : ScanSt),
      pageGo ia tf tol folder entries pf off files log rem sds = .interrupted st →
      ia = some st.log.length := by
  intro pf
  induction pf with
  | zero =>
    intro off files log rem sds st h
    simp [pageGo] at h
  | succ m ih =>
    intro off files log rem sds st h
    simp only [pageGo] at h
    split_ifs at h with h1 h2 h3
    all_goals first
      | exact ih _ _ _ _ _ _ h
      | (subst h; exact h1)
      | (cases h; exact h1)
      | simp_all

theorem scanLoop_interrupted_ia (L : String → List Entry) (ia : Option Nat)
    (tf : Option (List (String × Int))) (tol : Int) :
    ∀ (fuel : Nat) (stack : List String) (files : List (String × NasRec))
      (log : List Fetch) (rem : Option (List String)) (r : NasResult),
      scanLoop L ia tf tol fuel stack files log rem = some r → r.interrupted = true →
      ia = some r.log.length := by
  intro fuel
  induction fuel with
  | zero => intro stack files log rem r h; simp [scanLoop] at h
  | succ m ih =>
    intro stack files log rem r h hint
    cases hl : stack.getLast? with
    | none =>
      simp only [scanLoop, hl] at h
      obtain rfl : (⟨files, false, log, []⟩ : NasResult) = r := by
        simpa using h
      simp at hint
    | some folder =>
      simp only [scanLoop, pageLoop, hl] at h
      cases hp : pageGo ia tf tol folder (L folder) ((L folder).length / 5000 + 1) 0
          files log rem [] with
      | interrupted st =>
        rw [hp] at h
        have h' : some (⟨st.files, true, st.log, stack.dropLast⟩ : NasResult) = some r := h
        obtain rfl : (⟨st.files, true, st.log, stack.dropLast⟩ : NasResult) = r :=
          Option.some.inj h'
        exact pageGo_interrupted_ia ia tf tol folder (L folder) _ _ _ _ _ _ _ hp
      | fuelOut =>
        rw [hp] at h
        have h' : (none : Option NasResult) = some r := h
        simp at h'
      | done st subdirs rem' =>
        rw [hp] at h
        have h' : (if rem' = some [] then
            some (⟨st.files, false, st.log, stack.dropLast⟩ : NasResult)
          else scanLoop L ia tf tol m (stack.dropLast ++ sortStrings subdirs) st.files
            st.log rem') = some r := h
        by_cases he : rem' = some []
        · rw [if_pos he] at h'
          obtain rfl : (⟨st.files, false, st.log, stack.dropLast⟩ : NasResult) = r :=
            Option.some.inj h'
          simp at hint
        · rw [if_neg he] at h'
          exact ih _ _ _ _ _ h' hint

theorem scanLoop_none_not_interrupted (L : String → List Entry)
    (tf : Option (List (String × Int))) (tol : Int) :
    ∀ (fuel : Nat) (stack : List String) (files : List (String × NasRec))
      (log : List Fetch) (rem : Option (List String)) (r : NasResult),
      scanLoop L none tf tol fuel stack files log rem = some r →
      r.interrupted = false := by
  intro fuel stack files log rem r h
  by_cases hint : r.interrupted = true
  · have := scanLoop_interrupted_ia L none tf tol fuel stack files log rem r h hint
    simp at this
  · simpa using hint

theorem fetchesOf_step (folder : String) (n off : Nat) (h : 5000 ≤ n - off) :
    fetchesOf folder n off = (folder, off, 5000) :: fetchesOf folder n (off + 5000) := by
  unfold fetchesOf
  have h1 : (n - off) / 5000 + 1 = ((n - (off + 5000)) / 5000 + 1) + 1 := by
    have h2 : n - off = (n - (off + 5000)) + 5000 := by omega
    rw [h2, Nat.add_div_right _ (by norm_num)]
  rw [h1, List.range_succ_eq_map, List.map_cons, List.map_map]
  have hhead : (folder, off + 5000 * 0, min 5000 (n - off - 5000 * 0)) =
      (folder, off, 5000) := by
    have : min 5000 (n - off - 5000 * 0) = 5000 := by omega
    rw [this]
    simp
  rw [hhead]
  have htail : List.map
      ((fun i => (folder, off + 5000 * i, min 5000 (n - off - 5000 * i))) ∘ Nat.succ)
      (List.range ((n - (off + 5000)) / 5000 + 1)) =
      List.map (fun i => (folder, off + 5000 + 5000 * i,
        min 5000 (n - (off + 5000) - 5000 * i)))
      (List.range ((n - (off + 5000)) / 5000 + 1)) := by
    apply List.map_congr_left
    intro i _
    simp only [Function.comp_apply]
    have e1 : off + 5000 * (i + 1) = off + 5000 + 5000 * i := by ring
    have e2 : n - off - 5000 * (i + 1) = n - (off + 5000) - 5000 * i := by omega
    rw [Nat.succ_eq_add_one, e1, e2]
  rw [htail]

theorem fetchesOf_small (folder : String) (n off : Nat) (h : n - off < 5000) :
    fetchesOf folder n off = [(folder, off, n - off)] := by
  unfold fetchesOf
  rw [Nat.div_eq_of_lt h]
  have : List.range 1 = [0] := rfl
  rw [this, List.map_cons, List.map_nil]
  have e1 : off + 5000 * 0 = off := by ring
  have e2 : min 5000 (n - off - 5000 * 0) = n - off := by omega
  rw [e1, e2]

theorem items_fold_rem_none (tf : Option (List (String × Int))) (tol : Int)
    (folder : String) (items : List Entry) :
    ∀ (acc : List (String × NasRec) × Option (List String) × List String),
      acc.2.1 = none → (items.foldl (processItem tf tol folder) acc).2.1 = none := by
  induction items with
  | nil => intro acc h; exact h
  | cons e t ih =>
    intro acc h
    rw [List.foldl_cons]
    exact ih _ (processItem_rem_none tf tol folder acc e h)

theorem items_fold_subdirs_nodirs (tf : Option (List (String × Int))) (tol : Int)
    (folder : String) (items : List Entry) (hd : ∀ e ∈ items, e.isdir = false) :
    ∀ (acc : List (String × NasRec) × Option (List String) × List String),
      (items.foldl (processItem tf tol folder) acc).2.2 = acc.2.2 := by
  induction items with
  | nil => intro acc; rfl
  | cons e t ih =>
    intro acc
    rw [List.foldl_cons,
      ih (fun x hx => hd x (List.mem_cons_of_mem e hx)) (processItem tf tol folder acc e),
      processItem_subdirs]
    rw [if_neg (by rw [hd e (List.mem_cons_self e t)]; simp)]

theorem pageGo_done_rem_none (ia : Option Nat) (tf : Option (List (String × Int)))
    (tol : Int) (folder : String) (entries : List Entry) :
    ∀ (pf off : Nat) (files : List (String × NasRec)) (log : List Fetch)
      (sds : List String) (st : ScanSt) (sds' : List String)
      (rem' : Option (List String)),
      pageGo ia tf tol folder entries pf off files log none sds = .done st sds' rem' →
      rem' = none := by
  intro pf
  induction pf with
  | zero =>
    intro off files log sds st sds' rem' h
    simp [pageGo] at h
  | succ m ih =>
    intro off files log sds st sds' rem' h
    have hfold := items_fold_rem_none tf tol folder ((entries.drop off).take 5000)
      (files, none, sds) rfl
    simp only [pageGo] at h
    split_ifs at h with h1 h2 h3
    all_goals first
      | (rw [show (((entries.drop off).take 5000).foldl (processItem tf tol folder)
            (files, none, sds)).2.1 = none from hfold] at h
         exact ih _ _ _ _ _ _ _ h)
      | exact h.2.2.symm
      | exact h.2.2 ▸ hfold
      | (cases h; rfl)
      | (cases h; exact hfold)
      | simp_all

theorem pageGo_done_subdirs_nodirs (ia : Option Nat)
    (tf : Option (List (String × Int))) (tol : Int) (folder : String)
    (entries : List Entry) (hd : ∀ e ∈ entries, e.isdir = false) :
    ∀ (pf off : Nat) (files : List (String × NasRec)) (log : List Fetch)
      (rem : Option (List String)) (sds : List String) (st : ScanSt)
      (sds' : List String) (rem' : Option (List String)),
      pageGo ia tf tol folder entries pf off files log rem sds = .done st sds' rem' →
      sds' = sds := by
  intro pf
  induction pf with
  | zero =>
    intro off files log rem sds st sds' rem' h
    simp [pageGo] at h
  | succ m ih =>
    intro off files log rem sds st sds' rem' h
    have hdi : ∀ e ∈ (entries.drop off).take 5000, e.isdir = false := fun e he =>
      hd e (List.mem_of_mem_drop (List.mem_of_mem_take he))
    have hfold := items_fold_subdirs_nodirs tf tol folder ((entries.drop off).take 5000)
      hdi (files, rem, sds)
    simp only [pageGo] at h
    split_ifs at h with h1 h2 h3
    all_goals first
      | (rw [show (((entries.drop off).take 5000).foldl (processItem tf tol folder)
            (files, rem, sds)).2.2 = sds from hfold] at h
         exact ih _ _ _ _ _ _ _ _ h)
      | exact h.2.1.symm
      | exact h.2.1 ▸ hfold
      | (cases h; rfl)
      | (cases h; exact hfold)
      | simp_all

theorem pageGo_done_full (tf : Option (List (String × Int))) (tol : Int)
    (folder : String) (entries : List Entry) :
    ∀ (pf off : Nat) (files : List (String × NasRec)) (log : List Fetch)
      (rem : Option (List String)) (sds : List String),
      (entries.length - off) / 5000 + 1 ≤ pf →
      ∃ st sds' rem',
        pageGo none tf tol folder entries pf off files log rem sds = .done st sds' rem' ∧
        st.log = log ++ fetchesOf folder entries.length off := by
  intro pf
  induction pf with
  | zero =>
    intro off files log rem sds h
    omega
  | succ m ih =>
    intro off files log rem sds hf
    have hlen : ((entries.drop off).take 5000).length = min 5000 (entries.length - off) := by
      simp [List.length_take, List.length_drop]
    simp only [pageGo]
    rw [if_neg (by simp)]
    by_cases hempty : (entries.drop off).take 5000 = []
    · rw [if_pos hempty]
      have h0 : entries.length - off = 0 := by
        rw [hempty] at hlen
        simp at hlen
        omega
      refine ⟨_, _, _, rfl, ?_⟩
      rw [fetchesOf_small folder entries.length off (by omega), h0, hempty]
      rfl
    · rw [if_neg hempty]
      by_cases hshort : ((entries.drop off).take 5000).length < 5000
      · rw [if_pos hshort]
        have hsmall : entries.length - off < 5000 := by omega
        refine ⟨_, _, _, rfl, ?_⟩
        rw [fetchesOf_small folder entries.length off hsmall]
        have : ((entries.drop off).take 5000).length = entries.length - off := by omega
        rw [this]
      · rw [if_neg hshort]
        have h5000 : ((entries.drop off).take 5000).length = 5000 := by omega
        have hge : 5000 ≤ entries.length - off := by omega
        have hfuel : (entries.length - (off + 5000)) / 5000 + 1 ≤ m := by
          have hsplit : entries.length - off = (entries.length - (off + 5000)) + 5000 := by
            omega
          rw [hsplit, Nat.add_div_right _ (by norm_num)] at hf
          omega
        obtain ⟨st, sds', rem', heq, hlog⟩ := ih (off + 5000)
          (((entries.drop off).take 5000).foldl (processItem tf tol folder)
            (files, rem, sds)).1
          (log ++ [(folder, off, ((entries.drop off).take 5000).length)])
          (((entries.drop off).take 5000).foldl (processItem tf tol folder)
            (files, rem, sds)).2.1
          (((entries.drop off).take 5000).foldl (processItem tf tol folder)
            (files, rem, sds)).2.2
          hfuel
        refine ⟨st, sds', rem', heq, ?_⟩
        rw [hlog, fetchesOf_step folder entries.length off hge, h5000,
          List.append_assoc]
        rfl

theorem scanLoop_stack_nil (L : String → List Entry) (ia : Option Nat)
    (tf : Option (List (String × Int))) (tol : Int) (fuel : Nat)
    (files : List (String × NasRec)) (log : List Fetch) (rem : Option (List String)) :
    scanLoop L ia tf tol (fuel + 1) [] files log rem = some ⟨files, false, log, []⟩ := rfl

theorem scanLoop_step_done (L : String → List Entry) (ia : Option Nat)
    (tf : Option (List (String × Int))) (tol : Int) (fuel : Nat) (stack : List String)
    (folder : String) (files : List (String × NasRec)) (log : List Fetch)
    (rem : Option (List String)) (st : ScanSt) (subdirs : List String)
    (rem' : Option (List String)) (hl : stack.getLast? = some folder)
    (hp : pageLoop ia tf tol folder (L folder) files log rem = .done st subdirs rem') :
    scanLoop L ia tf tol (fuel + 1) stack files log rem =
      if rem' = some [] then some ⟨st.files, false, st.log, stack.dropLast⟩
      else scanLoop L ia tf tol fuel (stack.dropLast ++ sortStrings subdirs) st.files
        st.log rem' := by
  simp only [scanLoop, pageLoop, hl]
  rw [show pageGo ia tf tol folder (L folder) ((L folder).length / 5000 + 1) 0 files log
    rem [] = .done st subdirs rem' from hp]

theorem scanLoop_step_interrupted (L : String → List Entry) (ia : Option Nat)
    (tf : Option (List (String × Int))) (tol : Int) (fuel : Nat) (stack : List String)
    (folder : String) (files : List (String × NasRec)) (log : List Fetch)
    (rem : Option (List String)) (st : ScanSt) (hl : stack.getLast? = some folder)
    (hp : pageLoop ia tf tol folder (L folder) files log rem = .interrupted st) :
    scanLoop L ia tf tol (fuel + 1) stack files log rem =
      some ⟨st.files, true, st.log, stack.dropLast⟩ := by
  simp only [scanLoop, pageLoop, hl]
  rw [show pageGo ia tf tol folder (L folder) ((L folder).length / 5000 + 1) 0 files log
    rem [] = .interrupted st from hp]

/-- C7: a folder whose entry count is an exact multiple of the page size
triggers one additional fetch returning an empty page before the folder
is concluded; a short page ends the folder with no further fetch.  The
first conjunct ties the scan's fetch log to the `fetchesOf` schedule,
the others compute that schedule at the two boundary shapes. -/
theorem c7_pagination_page_boundary (L : String → List Entry) (root : String)
    (tol : Int) (hd : ∀ e ∈ L root, e.isdir = false) :
    (∃ files, scan_nas_folder L none root none tol 2 =
      some ⟨files, false, fetchesOf root (L root).length 0, []⟩) ∧
    (∀ k : Nat, (L root).length = 5000 * k → 1 ≤ k →
      (fetchesOf root (L root).length 0).length = k + 1 ∧
      (fetchesOf root (L root).length 0).getLast? = some (root, 5000 * k, 0) ∧
      ∀ x ∈ (fetchesOf root (L root).length 0).dropLast, x.2.2 = 5000) ∧
    (∀ q s : Nat, (L root).length = 5000 * q + s → 0 < s → s < 5000 →
      (fetchesOf root (L root).length 0).length = q + 1 ∧
      (fetchesOf root (L root).length 0).getLast? = some (root, 5000 * q, s)) := by
  refine ⟨?_, ?_, ?_⟩
  · obtain ⟨st, sds', rem', heq, hlog⟩ :=
      pageGo_done_full none tol root (L root) ((L root).length / 5000 + 1) 0 [] [] none []
        (by simp)
    have hrem : rem' = none :=
      pageGo_done_rem_none none none tol root (L root) _ 0 [] [] [] st sds' rem' heq
    have hsds : sds' = [] :=
      pageGo_done_subdirs_nodirs none none tol root (L root) hd _ 0 [] [] none [] st
        sds' rem' heq
    refine ⟨st.files, ?_⟩
    have hlog' : st.log = fetchesOf root (L root).length 0 := by simpa using hlog
    show scanLoop L none none tol 2 [root] [] [] none = _
    rw [scanLoop_step_done L none none tol 1 [root] root [] [] none st sds' rem' rfl heq,
      hrem, if_neg (by simp), hsds,
      show ([root].dropLast ++ sortStrings [] : List String) = [] from rfl, ← hlog']
    exact scanLoop_stack_nil L none none tol 0 st.files st.log none
  · intro k hk h1k
    rw [hk]
    have hlog : ∀ j : Nat, j ≤ k → fetchesOf root (5000 * k) (5000 * (k - j)) =
        (List.range j).map (fun i => (root, 5000 * (k - j) + 5000 * i, 5000)) ++
          [(root, 5000 * k, 0)] := by
      intro j
      induction j with
      | zero =>
        intro hj
        rw [fetchesOf_small root (5000 * k) (5000 * (k - 0)) (by omega)]
        rw [Nat.sub_zero]
        have h1 : 5000 * k - 5000 * k = 0 := by omega
        rw [h1]
        simp
      | succ i ihj =>
        intro hj
        rw [fetchesOf_step root (5000 * k) (5000 * (k - (i + 1))) (by omega),
          show 5000 * (k - (i + 1)) + 5000 = 5000 * (k - i) from by omega,
          ihj (by omega), List.range_succ_eq_map, List.map_cons, List.cons_append]
        congr 1
        congr 1
        rw [List.map_map]
        apply List.map_congr_left
        intro a ha
        simp only [Function.comp_apply, Nat.succ_eq_add_one]
        exact congrArg (fun z => (root, z, 5000))
          (by omega : 5000 * (k - i) + 5000 * a = 5000 * (k - (i + 1)) + 5000 * (a + 1))
    have hmain := hlog k (le_refl k)
    rw [Nat.sub_self, Nat.mul_zero] at hmain
    rw [hmain]
    refine ⟨?_, ?_, ?_⟩
    · simp
    · rw [List.getLast?_concat]
    · intro x hx
      rw [List.dropLast_concat] at hx
      obtain ⟨i, hi, hxi⟩ := List.mem_map.mp hx
      rw [← hxi]
  · intro q s hqs h0 h5
    rw [hqs]
    have hlog : ∀ j : Nat, j ≤ q → fetchesOf root (5000 * q + s) (5000 * (q - j)) =
        (List.range j).map (fun i => (root, 5000 * (q - j) + 5000 * i, 5000)) ++
          [(root, 5000 * q, s)] := by
      intro j
      induction j with
      | zero =>
        intro hj
        rw [fetchesOf_small root (5000 * q + s) (5000 * (q - 0)) (by omega)]
        rw [Nat.sub_zero]
        have h1 : 5000 * q + s - 5000 * q = s := by omega
        rw [h1]
        simp
      | succ i ihj =>
        intro hj
        rw [fetchesOf_step root (5000 * q + s) (5000 * (q - (i + 1))) (by omega),
          show 5000 * (q - (i + 1)) + 5000 = 5000 * (q - i) from by omega,
          ihj (by omega), List.range_succ_eq_map, List.map_cons, List.cons_append]
        congr 1
        congr 1
        rw [List.map_map]
        apply List.map_congr_left
        intro a ha
        simp only [Function.comp_apply, Nat.succ_eq_add_one]
        exact congrArg (fun z => (root, z, 5000))
          (by omega : 5000 * (q - i) + 5000 * a = 5000 * (q - (i + 1)) + 5000 * (a + 1))
    have hmain := hlog q (le_refl q)
    rw [Nat.sub_self, Nat.mul_zero] at hmain
    rw [hmain]
    refine ⟨by simp, by rw [List.getLast?_concat]⟩

/-- C7 witness: a root holding exactly 5000 file entries needs two
fetches, the second returning an empty page. -/
theorem c7_pagination_page_boundary_witness :
    (∀ e ∈ listingC7 "/r", e.isdir = false) ∧
    (∃ files, scan_nas_folder listingC7 none "/r" none 10 2 =
      some ⟨files, false, fetchesOf "/r" (listingC7 "/r").length 0, []⟩) ∧
    (fetchesOf "/r" (listingC7 "/r").length 0).length = 1 + 1 ∧
    (fetchesOf "/r" (listingC7 "/r").length 0).getLast? = some ("/r", 5000 * 1, 0) := by
  have hd : ∀ e ∈ listingC7 "/r", e.isdir = false := by
    intro e he
    rw [show listingC7 "/r" = List.replicate 5000 entryC7 from rfl] at he
    rw [List.eq_of_mem_replicate he]
    rfl
  have hlen : (listingC7 "/r").length = 5000 * 1 := by
    rw [show listingC7 "/r" = List.replicate 5000 entryC7 from rfl,
      List.length_replicate]
  refine ⟨hd, (c7_pagination_page_boundary listingC7 "/r" 10 hd).1, ?_, ?_⟩
  · exact ((c7_pagination_page_boundary listingC7 "/r" 10 hd).2.1 1 hlen (le_refl 1)).1
  · exact ((c7_pagination_page_boundary listingC7 "/r" 10 hd).2.1 1 hlen (le_refl 1)).2.1

/-! ### Traversal order: claim C5 -/

theorem charListLt_asymm : ∀ (a b : List Char),
    charListLt a b = true → charListLt b a = false := by
  intro a
  induction a with
  | nil =>
    intro b h
    cases b with
    | nil => simp [charListLt] at h
    | cons y ys => rfl
  | cons x xs ih =>
    intro b h
    cases b with
    | nil => simp [charListLt] at h
    | cons y ys =>
      simp only [charListLt] at h ⊢
      by_cases h1 : x.toNat < y.toNat
      · rw [if_neg (by omega), if_pos h1]
      · by_cases h2 : y.toNat < x.toNat
        · rw [if_neg h1, if_pos h2] at h
          exact absurd h (by simp)
        · rw [if_neg h1, if_neg h2] at h
          rw [if_neg h2, if_neg h1]
          exact ih ys h

theorem strLe_total (a b : String) : strLe a b = true ∨ strLe b a = true := by
  by_cases h : charListLt b.data a.data = true
  · right
    unfold strLe
    rw [charListLt_asymm _ _ h]
    rfl
  · left
    have hf : charListLt b.data a.data = false := by
      revert h
      cases charListLt b.data a.data <;> simp
    unfold strLe
    rw [hf]
    rfl

theorem strLe_of_not_strLe {a b : String} (h : ¬strLe a b = true) : strLe b a = true := by
  rcases strLe_total a b with h1 | h1
  · exact absurd h1 h
  · exact h1

theorem chain'_insertStr (x : String) (l : List String)
    (h : List.Chain' (fun a b => strLe a b = true) l) :
    List.Chain' (fun a b => strLe a b = true) (insertStr x l) := by
  induction l with
  | nil => simp [insertStr]
  | cons y ys ihy =>
    by_cases hxy : strLe x y = true
    · rw [show insertStr x (y :: ys) = if strLe x y then x :: y :: ys
        else y :: insertStr x ys from rfl, if_pos hxy]
      exact List.chain'_cons.mpr ⟨hxy, h⟩
    · rw [show insertStr x (y :: ys) = if strLe x y then x :: y :: ys
        else y :: insertStr x ys from rfl, if_neg hxy]
      refine List.chain'_cons'.mpr ⟨?_, ihy h.tail⟩
      intro b hb
      cases ys with
      | nil =>
        simp [insertStr] at hb
        rw [← hb]
        exact strLe_of_not_strLe hxy
      | cons z zs =>
        rw [show insertStr x (z :: zs) = if strLe x z then x :: z :: zs
          else z :: insertStr x zs from rfl] at hb
        by_cases hxz : strLe x z = true
        · rw [if_pos hxz] at hb
          simp at hb
          rw [← hb]
          exact strLe_of_not_strLe hxy
        · rw [if_neg hxz] at hb
          simp at hb
          rw [← hb]
          exact (List.chain'_cons.mp h).1

theorem sortStrings_chain (l : List String) :
    List.Chain' (fun a b => strLe a b = true) (sortStrings l) := by
  induction l with
  | nil => simp [sortStrings]
  | cons x t ih => exact chain'_insertStr x (sortStrings t) ih

theorem insertStr_length (x : String) (l : List String) :
    (insertStr x l).length = l.length + 1 := by
  induction l with
  | nil => rfl
  | cons y ys ih =>
    rw [show insertStr x (y :: ys) = if strLe x y then x :: y :: ys
      else y :: insertStr x ys from rfl]
    by_cases hxy : strLe x y = true
    · rw [if_pos hxy]
      simp
    · rw [if_neg hxy]
      simp [ih]

theorem sortStrings_length (l : List String) : (sortStrings l).length = l.length := by
  induction l with
  | nil => rfl
  | cons x t ih =>
    show (insertStr x (sortStrings t)).length = t.length + 1
    rw [insertStr_length, ih]

theorem mem_insertStr {a x : String} {l : List String} :
    a ∈ insertStr x l ↔ a = x ∨ a ∈ l := by
  induction l with
  | nil => simp [insertStr]
  | cons y ys ih =>
    rw [show insertStr x (y :: ys) = if strLe x y then x :: y :: ys
      else y :: insertStr x ys from rfl]
    by_cases hxy : strLe x y = true
    · rw [if_pos hxy]
      simp
    · rw [if_neg hxy]
      simp [ih]
      tauto

theorem mem_sortStrings {a : String} {l : List String} :
    a ∈ sortStrings l ↔ a ∈ l := by
  induction l with
  | nil => simp [sortStrings]
  | cons x t ih =>
    show a ∈ insertStr x (sortStrings t) ↔ _
    rw [mem_insertStr, ih]
    simp

theorem processItem_dir (tf : Option (List (String × Int))) (tol : Int)
    (folder : String)
    (acc : List (String × NasRec) × Option (List String) × List String) (e : Entry)
    (hd : e.isdir = true) :
    processItem tf tol folder acc e = (acc.1, acc.2.1, acc.2.2 ++ [e.path]) := by
  simp only [processItem]
  rw [if_pos hd]

theorem dirs_fold (tf : Option (List (String × Int))) (tol : Int) (folder : String)
    (items : List Entry) (hd : ∀ e ∈ items, e.isdir = true) :
    ∀ (acc : List (String × NasRec) × Option (List String) × List String),
      items.foldl (processItem tf tol folder) acc =
        (acc.1, acc.2.1, acc.2.2 ++ items.map (fun e => e.path)) := by
  induction items with
  | nil => intro acc; simp
  | cons e t ih =>
    intro acc
    rw [List.foldl_cons, processItem_dir tf tol folder acc e (hd e (List.mem_cons_self e t)),
      ih (fun x hx => hd x (List.mem_cons_of_mem e hx))]
    simp

theorem scanLoop_empty_stack (L : String → List Entry)
    (tf : Option (List (String × Int))) (tol : Int) :
    ∀ (rs : List String), (∀ p ∈ rs, L p = []) →
      ∀ (files : List (String × NasRec)) (log : List Fetch),
        scanLoop L none tf tol (rs.length + 1) rs.reverse files log none =
          some ⟨files, false, log ++ rs.map (fun p => (p, 0, 0)), []⟩ := by
  intro rs
  induction rs with
  | nil =>
    intro h files log
    simpa using scanLoop_stack_nil L none tf tol 0 files log none
  | cons p rest ih =>
    intro h files log
    have hLp : L p = [] := h p (List.mem_cons_self p rest)
    have hpl : pageLoop none tf tol p (L p) files log none =
        .done ⟨files, log ++ [(p, 0, 0)]⟩ [] none := by
      rw [hLp]
      rfl
    have hlast : ((p :: rest).reverse).getLast? = some p := by
      rw [List.reverse_cons]
      exact List.getLast?_concat _
    have hdrop : ((p :: rest).reverse).dropLast = rest.reverse := by
      rw [List.reverse_cons]
      exact List.dropLast_concat
    rw [show (p :: rest).length + 1 = (rest.length + 1) + 1 from by simp]
    rw [scanLoop_step_done L none tf tol (rest.length + 1) ((p :: rest).reverse) p files
      log none ⟨files, log ++ [(p, 0, 0)]⟩ [] none hlast hpl]
    rw [if_neg (by simp), hdrop,
      show sortStrings [] = ([] : List String) from rfl, List.append_nil,
      ih (fun q hq => h q (List.mem_cons_of_mem p hq)) files (log ++ [(p, 0, 0)])]
    simp

/-- C5 counterexample: a root with subdirectories `/r/a` and `/r/b` is
traversed `/r`, `/r/b`, `/r/a`: the lexicographically larger sibling is
fetched first, refuting ascending visiting order. -/
theorem c5_counterexample :
    scan_nas_folder listingC5 none "/r" none 10 5 =
      some ⟨[], false, [("/r", 0, 2), ("/r/b", 0, 0), ("/r/a", 0, 0)], []⟩ ∧
    strLe "/r/a" "/r/b" = true ∧
    ["/r", "/r/b", "/r/a"].indexOf "/r/b" < ["/r", "/r/b", "/r/a"].indexOf "/r/a" :=
  ⟨by decide, by decide, by decide⟩

/-- C5 (amended): subdirectories are pushed in ascending sorted-name
order, but the work stack pops from the end, so sibling folders are
visited in descending sorted-name order; the traversal is deterministic:
over a root of `ds` subdirectories with empty listings, the fetch order
is exactly the root followed by the reverse of the ascending-sorted
sibling paths. -/
theorem c5_sorted_push_descending_visit (L : String → List Entry) (root : String)
    (tol : Int) (ds : List Entry) (hroot : L root = ds)
    (hdir : ∀ e ∈ ds, e.isdir = true) (hsub : ∀ e ∈ ds, L e.path = [])
    (hlen : ds.length < 5000) :
    scan_nas_folder L none root none tol (ds.length + 2) =
      some ⟨[], false,
        (root, 0, ds.length) ::
          ((sortStrings (ds.map (fun e => e.path))).reverse.map (fun p => (p, 0, 0))),
        []⟩ ∧
    List.Chain' (fun a b => strLe a b = true) (sortStrings (ds.map (fun e => e.path))) := by
  refine ⟨?_, sortStrings_chain _⟩
  have hfuel : ds.length / 5000 + 1 = 1 := by
    rw [Nat.div_eq_of_lt hlen]
  have hpg : pageGo none none tol root ds 1 0 [] [] none [] =
      .done ⟨[], [(root, 0, ds.length)]⟩ (ds.map (fun e => e.path)) none := by
    simp only [pageGo]
    rw [if_neg (by simp)]
    have hitems : (ds.drop 0).take 5000 = ds := by
      rw [List.drop_zero]
      exact List.take_of_length_le (le_of_lt hlen)
    rw [hitems]
    by_cases hnil : ds = []
    · subst hnil
      simp
    · rw [if_neg hnil,
        show ds.foldl (processItem none tol root) ([], none, []) =
          (([] : List (String × NasRec)), (none : Option (List String)),
            [] ++ ds.map (fun e => e.path)) from dirs_fold none tol root ds hdir _,
        if_pos hlen]
      simp
  have hpl : pageLoop none none tol root (L root) [] [] none =
      .done ⟨[], [(root, 0, ds.length)]⟩ (ds.map (fun e => e.path)) none := by
    unfold pageLoop
    rw [hroot, hfuel]
    exact hpg
  show scanLoop L none none tol (ds.length + 2) [root] [] [] none = _
  rw [show ds.length + 2 = (ds.length + 1) + 1 from by omega]
  rw [scanLoop_step_done L none none tol (ds.length + 1) [root] root [] [] none
    ⟨[], [(root, 0, ds.length)]⟩ (ds.map (fun e => e.path)) none rfl hpl]
  rw [if_neg (by simp)]
  have hempty := scanLoop_empty_stack L none tol
    ((sortStrings (ds.map (fun e => e.path))).reverse)
    (by
      intro q hq
      rw [List.mem_reverse] at hq
      obtain ⟨e, he, hpe⟩ := List.mem_map.mp (mem_sortStrings.mp hq)
      rw [← hpe]
      exact hsub e he)
    [] [(root, 0, ds.length)]
  rw [List.reverse_reverse, List.length_reverse, sortStrings_length, List.length_map]
    at hempty
  rw [show ([root].dropLast ++ sortStrings (ds.map (fun e => e.path))) =
    sortStrings (ds.map (fun e => e.path)) from by simp]
  rw [hempty]
  rfl

/-- C5 witness: the concrete two-subdirectory root. -/
theorem c5_sorted_push_descending_visit_witness :
    scan_nas_folder listingC5 none "/r" none 10 4 =
      some ⟨[], false,
        ("/r", 0, 2) ::
          ((sortStrings [("/r/a" : String), "/r/b"]).reverse.map (fun p => (p, 0, 0))),
        []⟩ ∧
    List.Chain' (fun a b => strLe a b = true) (sortStrings [("/r/a" : String), "/r/b"]) := by
  have h := c5_sorted_push_descending_visit listingC5 "/r" 10 (listingC5 "/r") rfl
    (by decide) (by decide) (by decide)
  exact h

/-! ### Early exit and interruption: claim C2 -/

theorem lookup_of_mem_nodup {m : List (String × Int)} {k : String} {v : Int}
    (hnd : (m.map Prod.fst).Nodup) (hm : (k, v) ∈ m) : m.lookup k = some v := by
  induction m with
  | nil => cases hm
  | cons p t ih =>
    obtain ⟨k', v'⟩ := p
    simp only [List.map_cons, List.nodup_cons] at hnd
    rcases List.mem_cons.mp hm with he | ht
    · simp at he
      obtain ⟨hk, hv⟩ := he
      subst hk
      subst hv
      rw [lookup_cons_eq, if_pos rfl]
    · have hk : k ≠ k' := by
        intro hkk
        subst hkk
        exact hnd.1 (List.mem_map.mpr ⟨(k, v), ht, rfl⟩)
      rw [lookup_cons_eq, if_neg hk]
      exact ih hnd.2 ht

theorem lookup_isSome_of_mem {m : List (String × Int)} {k : String} {v : Int}
    (hm : (k, v) ∈ m) : (m.lookup k).isSome := by
  induction m with
  | nil => cases hm
  | cons p t ih =>
    obtain ⟨k', v'⟩ := p
    by_cases hk : k = k'
    · rw [lookup_cons_eq, if_pos hk]
      rfl
    · rw [lookup_cons_eq, if_neg hk]
      rcases List.mem_cons.mp hm with he | ht
      · simp at he
        exact absurd he.1 hk
      · exact ih ht

theorem processItem_target_inv (tf : Option (List (String × Int))) (tol : Int)
    (folder : String) (e : Entry) (files : List (String × NasRec)) (rem : List String)
    (sds : List String) (hnodup : ((tf.getD []).map Prod.fst).Nodup)
    (hinv : ∀ kt ∈ tf.getD [], kt.1 ∈ rem ∨ matchedIn files kt.1 kt.2 tol) :
    ∃ rem', (processItem tf tol folder (files, some rem, sds) e).2.1 = some rem' ∧
      ∀ kt ∈ tf.getD [], kt.1 ∈ rem' ∨
        matchedIn (processItem tf tol folder (files, some rem, sds) e).1 kt.1 kt.2 tol := by
  simp only [processItem]
  split_ifs with hd h2 h3 h4 h5 h6
  · exact ⟨rem, rfl, hinv⟩
  · -- not seen before, matching: record and discard
    refine ⟨rem.filter (fun s => !(s == strLower e.name)), rfl, ?_⟩
    intro kt hkt
    by_cases hk : kt.1 = strLower e.name
    · right
      refine ⟨e.size, e.mtime, folder, ?_, ?_⟩
      · rw [lookup_dictSet, if_pos hk]
      · have hlk : (tf.getD []).lookup (strLower e.name) = some kt.2 := by
          rw [← hk]
          exact lookup_of_mem_nodup hnodup hkt
        have := h4.1
        rw [hlk] at this
        simpa using this
    · rcases hinv kt hkt with hr | hm
      · left
        simp only [List.mem_filter]
        exact ⟨hr, by simp [hk]⟩
      · right
        obtain ⟨s, mt, f, hl, ht⟩ := hm
        exact ⟨s, mt, f, by rw [lookup_dictSet, if_neg hk]; exact hl, ht⟩
  · -- not seen before, not matching (or remaining falsy): record, keep remaining
    refine ⟨rem, rfl, ?_⟩
    intro kt hkt
    by_cases hk : kt.1 = strLower e.name
    · rcases hinv kt hkt with hr | hm
      · exact Or.inl hr
      · obtain ⟨s, mt, f, hl, ht⟩ := hm
        rw [hk] at hl
        rw [hl] at h3
        simp at h3
    · rcases hinv kt hkt with hr | hm
      · exact Or.inl hr
      · right
        obtain ⟨s, mt, f, hl, ht⟩ := hm
        exact ⟨s, mt, f, by rw [lookup_dictSet, if_neg hk]; exact hl, ht⟩
  · -- seen before, matching while still remaining: override and discard
    refine ⟨rem.filter (fun s => !(s == strLower e.name)), rfl, ?_⟩
    intro kt hkt
    by_cases hk : kt.1 = strLower e.name
    · right
      refine ⟨e.size, e.mtime, folder, ?_, ?_⟩
      · rw [lookup_dictSet, if_pos hk]
      · have hlk : (tf.getD []).lookup (strLower e.name) = some kt.2 := by
          rw [← hk]
          exact lookup_of_mem_nodup hnodup hkt
        have := h5.1
        rw [hlk] at this
        simpa using this
    · rcases hinv kt hkt with hr | hm
      · left
        simp only [List.mem_filter]
        exact ⟨hr, by simp [hk]⟩
      · right
        obtain ⟨s, mt, f, hl, ht⟩ := hm
        exact ⟨s, mt, f, by rw [lookup_dictSet, if_neg hk]; exact hl, ht⟩
  · exact ⟨rem, rfl, hinv⟩
  · -- outside the target set: record if absent
    refine ⟨rem, rfl, ?_⟩
    intro kt hkt
    have hk : kt.1 ≠ strLower e.name := by
      intro hkk
      apply h2
      constructor
      · intro hnil
        rw [hnil] at hkt
        cases hkt
      · rw [← hkk]
        exact lookup_isSome_of_mem hkt
    rcases hinv kt hkt with hr | hm
    · exact Or.inl hr
    · right
      obtain ⟨s, mt, f, hl, ht⟩ := hm
      exact ⟨s, mt, f, by rw [lookup_dictSet, if_neg hk]; exact hl, ht⟩
  · exact ⟨rem, rfl, hinv⟩

theorem items_fold_target_inv (tf : Option (List (String × Int))) (tol : Int)
    (folder : String) (hnodup : ((tf.getD []).map Prod.fst).Nodup)
    (items : List Entry) :
    ∀ (files : List (String × NasRec)) (rem : List String) (sds : List String),
      (∀ kt ∈ tf.getD [], kt.1 ∈ rem ∨ matchedIn files kt.1 kt.2 tol) →
      ∃ rem', (items.foldl (processItem tf tol folder) (files, some rem, sds)).2.1 =
          some rem' ∧
        ∀ kt ∈ tf.getD [], kt.1 ∈ rem' ∨
          matchedIn (items.foldl (processItem tf tol folder)
            (files, some rem, sds)).1 kt.1 kt.2 tol := by
  induction items with
  | nil =>
    intro files rem sds hinv
    exact ⟨rem, rfl, hinv⟩
  | cons e t ih =>
    intro files rem sds hinv
    rw [List.foldl_cons]
    obtain ⟨rem1, hr1, hinv1⟩ :=
      processItem_target_inv tf tol folder e files rem sds hnodup hinv
    have hP : processItem tf tol folder (files, some rem, sds) e =
        ((processItem tf tol folder (files, some rem, sds) e).1, some rem1,
         (processItem tf tol folder (files, some rem, sds) e).2.2) := by
      rw [← hr1]
    obtain ⟨rem2, hr2, hinv2⟩ := ih (processItem tf tol folder (files, some rem, sds) e).1
      rem1 (processItem tf tol folder (files, some rem, sds) e).2.2 hinv1
    rw [hP]
    exact ⟨rem2, hr2, hinv2⟩

theorem pageGo_target_inv (ia : Option Nat) (tf : Option (List (String × Int)))
    (tol : Int) (folder : String) (entries : List Entry)
    (hnodup : ((tf.getD []).map Prod.fst).Nodup) :
    ∀ (pf off : Nat) (files : List (String × NasRec)) (log : List Fetch)
      (rem : List String) (sds : List String) (st : ScanSt) (sds' : List String)
      (rem'' : Option (List String)),
      (∀ kt ∈ tf.getD [], kt.1 ∈ rem ∨ matchedIn files kt.1 kt.2 tol) →
      pageGo ia tf tol folder entries pf off files log (some rem) sds =
        .done st sds' rem'' →
      ∃ rem2, rem'' = some rem2 ∧
        ∀ kt ∈ tf.getD [], kt.1 ∈ rem2 ∨ matchedIn st.files kt.1 kt.2 tol := by
  intro pf
  induction pf with
  | zero =>
    intro off files log rem sds st sds' rem'' hinv h
    simp [pageGo] at h
  | succ m ih =>
    intro off files log rem sds st sds' rem'' hinv h
    obtain ⟨rem1, hr1, hinv1⟩ := items_fold_target_inv tf tol folder hnodup
      ((entries.drop off).take 5000) files rem sds hinv
    simp only [pageGo] at h
    split_ifs at h with h1 h2 h3
    · cases h
      exact ⟨rem, rfl, hinv⟩
    · cases h
      exact ⟨rem1, hr1, hinv1⟩
    · rw [show (((entries.drop off).take 5000).foldl (processItem tf tol folder)
        (files, some rem, sds)).2.1 = some rem1 from hr1] at h
      exact ih _ _ _ _ _ _ _ _ hinv1 h

theorem scanLoop_rem_none_leftover (L : String → List Entry) (ia : Option Nat)
    (tf : Option (List (String × Int))) (tol : Int) :
    ∀ (fuel : Nat) (stack : List String) (files : List (String × NasRec))
      (log : List Fetch) (r : NasResult),
      scanLoop L ia tf tol fuel stack files log none = some r →
      r.interrupted = false → r.leftover = [] := by
  intro fuel
  induction fuel with
  | zero => intro stack files log r h; simp [scanLoop] at h
  | succ m ih =>
    intro stack files log r h hint
    cases hl : stack.getLast? with
    | none =>
      simp only [scanLoop, hl] at h
      obtain rfl : (⟨files, false, log, []⟩ : NasResult) = r := by simpa using h
      rfl
    | some folder =>
      simp only [scanLoop, pageLoop, hl] at h
      cases hp : pageGo ia tf tol folder (L folder) ((L folder).length / 5000 + 1) 0
          files log none [] with
      | interrupted st =>
        rw [hp] at h
        have h' : some (⟨st.files, true, st.log, stack.dropLast⟩ : NasResult) = some r := h
        obtain rfl : (⟨st.files, true, st.log, stack.dropLast⟩ : NasResult) = r :=
          Option.some.inj h'
        simp at hint
      | fuelOut =>
        rw [hp] at h
        have h' : (none : Option NasResult) = some r := h
        simp at h'
      | done st subdirs rem' =>
        have hrn : rem' = none :=
          pageGo_done_rem_none ia tf tol folder (L folder) _ 0 files log [] st subdirs
            rem' hp
        rw [hp] at h
        have h' : (if rem' = some [] then
            some (⟨st.files, false, st.log, stack.dropLast⟩ : NasResult)
          else scanLoop L ia tf tol m (stack.dropLast ++ sortStrings subdirs) st.files
            st.log rem') = some r := h
        rw [if_neg (by rw [hrn]; simp), hrn] at h'
        exact ih _ _ _ _ h' hint

theorem scanLoop_target_early (L : String → List Entry) (ia : Option Nat)
    (tf : Option (List (String × Int))) (tol : Int)
    (hnodup : ((tf.getD []).map Prod.fst).Nodup) :
    ∀ (fuel : Nat) (stack : List String) (files : List (String × NasRec))
      (log : List Fetch) (rem : List String) (r : NasResult),
      (∀ kt ∈ tf.getD [], kt.1 ∈ rem ∨ matchedIn files kt.1 kt.2 tol) →
      scanLoop L ia tf tol fuel stack files log (some rem) = some r →
      r.interrupted = false → r.leftover ≠ [] →
      ∀ kt ∈ tf.getD [], matchedIn r.files kt.1 kt.2 tol := by
  intro fuel
  induction fuel with
  | zero => intro stack files log rem r hinv h; simp [scanLoop] at h
  | succ m ih =>
    intro stack files log rem r hinv h hint hlf
    cases hl : stack.getLast? with
    | none =>
      simp only [scanLoop, hl] at h
      obtain rfl : (⟨files, false, log, []⟩ : NasResult) = r := by simpa using h
      simp at hlf
    | some folder =>
      simp only [scanLoop, pageLoop, hl] at h
      cases hp : pageGo ia tf tol folder (L folder) ((L folder).length / 5000 + 1) 0
          files log (some rem) [] with
      | interrupted st =>
        rw [hp] at h
        have h' : some (⟨st.files, true, st.log, stack.dropLast⟩ : NasResult) = some r := h
        obtain rfl : (⟨st.files, true, st.log, stack.dropLast⟩ : NasResult) = r :=
          Option.some.inj h'
        simp at hint
      | fuelOut =>
        rw [hp] at h
        have h' : (none : Option NasResult) = some r := h
        simp at h'
      | done st subdirs rem' =>
        obtain ⟨rem2, hrem2, hinv2⟩ := pageGo_target_inv ia tf tol folder (L folder)
          hnodup _ 0 files log rem [] st subdirs rem' hinv hp
        rw [hp] at h
        have h' : (if rem' = some [] then
            some (⟨st.files, false, st.log, stack.dropLast⟩ : NasResult)
          else scanLoop L ia tf tol m (stack.dropLast ++ sortStrings subdirs) st.files
            st.log rem') = some r := h
        by_cases he : rem' = some []
        · rw [if_pos he] at h'
          obtain rfl : (⟨st.files, false, st.log, stack.dropLast⟩ : NasResult) = r :=
            Option.some.inj h'
          intro kt hkt
          rcases hinv2 kt hkt with hr | hm
          · rw [he] at hrem2
            obtain rfl : ([] : List String) = rem2 := Option.some.inj hrem2
            cases hr
          · exact hm
        · rw [if_neg he, hrem2] at h'
          exact ih _ _ _ _ _ hinv2 h' hint hlf

theorem fetchesOf_length (folder : String) (n off : Nat) :
    (fetchesOf folder n off).length = (n - off) / 5000 + 1 := by
  simp [fetchesOf]

theorem fetchesOf_folder (folder : String) (n off : Nat) :
    ∀ x ∈ fetchesOf folder n off, x.1 = folder := by
  intro x hx
  obtain ⟨i, -, hi⟩ := List.mem_map.mp hx
  rw [← hi]

theorem take_length_take (l : List α) (n : Nat) :
    l.take (l.take n).length = l.take n := by
  rw [List.length_take]
  rcases Nat.le_total n l.length with h | h
  · rw [Nat.min_eq_left h]
  · rw [Nat.min_eq_right h, List.take_length, List.take_of_length_le h]

theorem take_append_left (l₁ l₂ : List α) (k : Nat) (h : k ≤ l₁.length) :
    (l₁ ++ l₂).take k = l₁.take k := by
  rw [List.take_append_eq_append_take, Nat.sub_eq_zero_of_le h, List.take_zero,
    List.append_nil]

theorem processItem_sds_indep (tf : Option (List (String × Int))) (tol : Int)
    (folder : String) (files : List (String × NasRec)) (rem : Option (List String))
    (sds sds' : List String) (e : Entry) :
    ((processItem tf tol folder (files, rem, sds) e).1,
     (processItem tf tol folder (files, rem, sds) e).2.1) =
    ((processItem tf tol folder (files, rem, sds') e).1,
     (processItem tf tol folder (files, rem, sds') e).2.1) := by
  simp only [processItem]
  split_ifs <;> rfl

theorem items_fold_sds_indep (tf : Option (List (String × Int))) (tol : Int)
    (folder : String) (items : List Entry) :
    ∀ (files : List (String × NasRec)) (rem : Option (List String))
      (sds sds' : List String),
      ((items.foldl (processItem tf tol folder) (files, rem, sds)).1,
       (items.foldl (processItem tf tol folder) (files, rem, sds)).2.1) =
      ((items.foldl (processItem tf tol folder) (files, rem, sds')).1,
       (items.foldl (processItem tf tol folder) (files, rem, sds')).2.1) := by
  induction items with
  | nil => intro files rem sds sds'; rfl
  | cons e t ih =>
    intro files rem sds sds'
    rw [List.foldl_cons, List.foldl_cons]
    have h := processItem_sds_indep tf tol folder files rem sds sds' e
    have hf : (processItem tf tol folder (files, rem, sds) e).1 =
        (processItem tf tol folder (files, rem, sds') e).1 := by
      have h0 := congrArg Prod.fst h
      exact h0
    have hr : (processItem tf tol folder (files, rem, sds) e).2.1 =
        (processItem tf tol folder (files, rem, sds') e).2.1 := by
      have h0 := congrArg Prod.snd h
      exact h0
    have h1 : processItem tf tol folder (files, rem, sds) e =
        ((processItem tf tol folder (files, rem, sds') e).1,
         (processItem tf tol folder (files, rem, sds') e).2.1,
         (processItem tf tol folder (files, rem, sds) e).2.2) := by
      rw [← hf, ← hr]
    have h2 : processItem tf tol folder (files, rem, sds') e =
        ((processItem tf tol folder (files, rem, sds') e).1,
         (processItem tf tol folder (files, rem, sds') e).2.1,
         (processItem tf tol folder (files, rem, sds') e).2.2) := rfl
    rw [h1, h2]
    exact ih _ _ _ _

theorem pageGo_done_log_extend (ia : Option Nat) (tf : Option (List (String × Int)))
    (tol : Int) (folder : String) (entries : List Entry) :
    ∀ (pf off : Nat) (files : List (String × NasRec)) (log : List Fetch)
      (rem : Option (List String)) (sds : List String) (st : ScanSt)
      (sds' : List String) (rem' : Option (List String)),
      pageGo ia tf tol folder entries pf off files log rem sds = .done st sds' rem' →
      ∃ tail, st.log = log ++ tail := by
  intro pf
  induction pf with
  | zero => intro off files log rem sds st sds' rem' h; simp [pageGo] at h
  | succ m ih =>
    intro off files log rem sds st sds' rem' h
    simp only [pageGo] at h
    split_ifs at h with h1 h2 h3
    all_goals first
      | (cases h; exact ⟨[(folder, off, ((entries.drop off).take 5000).length)], rfl⟩)
      | cases h
      | (obtain ⟨tail, htail⟩ := ih _ _ _ _ _ _ _ _ h
         exact ⟨(folder, off, ((entries.drop off).take 5000).length) :: tail, by
           rw [htail, List.append_assoc]; rfl⟩)
      | simp_all

theorem pageGo_interrupted_log_extend (ia : Option Nat)
    (tf : Option (List (String × Int))) (tol : Int) (folder : String)
    (entries : List Entry) :
    ∀ (pf off : Nat) (files : List (String × NasRec)) (log : List Fetch)
      (rem : Option (List String)) (sds : List String) (st : ScanSt),
      pageGo ia tf tol folder entries pf off files log rem sds = .interrupted st →
      ∃ tail, st.log = log ++ tail := by
  intro pf
  induction pf with
  | zero => intro off files log rem sds st h; simp [pageGo] at h
  | succ m ih =>
    intro off files log rem sds st h
    simp only [pageGo] at h
    split_ifs at h with h1 h2 h3
    all_goals first
      | (cases h; exact ⟨[], (List.append_nil log).symm⟩)
      | cases h
      | (obtain ⟨tail, htail⟩ := ih _ _ _ _ _ _ h
         exact ⟨(folder, off, ((entries.drop off).take 5000).length) :: tail, by
           rw [htail, List.append_assoc]; rfl⟩)
      | simp_all

theorem scanLoop_log_extend (L : String → List Entry) (ia : Option Nat)
    (tf : Option (List (String × Int))) (tol : Int) :
    ∀ (fuel : Nat) (stack : List String) (files : List (String × NasRec))
      (log : List Fetch) (rem : Option (List String)) (r : NasResult),
      scanLoop L ia tf tol fuel stack files log rem = some r →
      ∃ tail, r.log = log ++ tail := by
  intro fuel
  induction fuel with
  | zero => intro stack files log rem r h; simp [scanLoop] at h
  | succ m ih =>
    intro stack files log rem r h
    cases hl : stack.getLast? with
    | none =>
      simp only [scanLoop, hl] at h
      obtain rfl : (⟨files, false, log, []⟩ : NasResult) = r := by simpa using h
      exact ⟨[], (List.append_nil log).symm⟩
    | some folder =>
      simp only [scanLoop, pageLoop, hl] at h
      cases hp : pageGo ia tf tol folder (L folder) ((L folder).length / 5000 + 1) 0
          files log rem [] with
      | interrupted st =>
        rw [hp] at h
        have h' : some (⟨st.files, true, st.log, stack.dropLast⟩ : NasResult) = some r := h
        obtain rfl : (⟨st.files, true, st.log, stack.dropLast⟩ : NasResult) = r :=
          Option.some.inj h'
        exact pageGo_interrupted_log_extend ia tf tol folder (L folder) _ _ _ _ _ _ _ hp
      | fuelOut =>
        rw [hp] at h
        have h' : (none : Option NasResult) = some r := h
        simp at h'
      | done st subdirs rem' =>
        rw [hp] at h
        have h' : (if rem' = some [] then
            some (⟨st.files, false, st.log, stack.dropLast⟩ : NasResult)
          else scanLoop L ia tf tol m (stack.dropLast ++ sortStrings subdirs) st.files
            st.log rem') = some r := h
        obtain ⟨t1, ht1⟩ := pageGo_done_log_extend ia tf tol folder (L folder) _ 0
          files log rem [] st subdirs rem' hp
        by_cases he : rem' = some []
        · rw [if_pos he] at h'
          obtain rfl : (⟨st.files, false, st.log, stack.dropLast⟩ : NasResult) = r :=
            Option.some.inj h'
          exact ⟨t1, ht1⟩
        · rw [if_neg he] at h'
          obtain ⟨t2, ht2⟩ := ih _ _ _ _ _ h'
          exact ⟨t1 ++ t2, by rw [ht2, ht1, List.append_assoc]⟩

theorem pageGo_cancel_sim (tf : Option (List (String × Int))) (tol : Int)
    (folder : String) (entries : List Entry) (k : Nat) :
    ∀ (pf off : Nat) (files : List (String × NasRec)) (log : List Fetch)
      (rem : Option (List String)) (sds : List String) (st : ScanSt)
      (sds' : List String) (rem' : Option (List String)),
      log.length ≤ k →
      pageGo none tf tol folder entries pf off files log rem sds = .done st sds' rem' →
      (st.log.length ≤ k →
        pageGo (some k) tf tol folder entries pf off files log rem sds =
          .done st sds' rem') ∧
      (k < st.log.length →
        ∃ fI, pageGo (some k) tf tol folder entries pf off files log rem sds =
          .interrupted ⟨fI, st.log.take k⟩) := by
  intro pf
  induction pf with
  | zero => intro off files log rem sds st sds' rem' hk h; simp [pageGo] at h
  | succ m ih =>
    intro off files log rem sds st sds' rem' hk h
    simp only [pageGo] at h
    rw [if_neg (by simp : ¬(none : Option Nat) = some log.length)] at h
    by_cases hkeq : k = log.length
    · have hres : pageGo (some k) tf tol folder entries (m + 1) off files log rem sds =
          .interrupted ⟨files, log⟩ := by
        simp only [pageGo]
        rw [if_pos (by rw [hkeq])]
      have hext : ∃ tail, st.log =
          log ++ ((folder, off, ((entries.drop off).take 5000).length) :: tail) := by
        split_ifs at h with h2 h3
        · cases h
          exact ⟨[], rfl⟩
        · cases h
          exact ⟨[], rfl⟩
        · obtain ⟨tail, htail⟩ := pageGo_done_log_extend none tf tol folder entries
            m (off + 5000) _ _ _ _ st sds' rem' h
          refine ⟨tail, ?_⟩
          rw [htail, List.append_assoc]
          rfl
      obtain ⟨tail, hlog⟩ := hext
      have hlen : st.log.length = log.length + (tail.length + 1) := by
        rw [hlog, List.length_append, List.length_cons]
      have htake : st.log.take k = log := by
        rw [hlog, hkeq, take_append_left log
          ((folder, off, ((entries.drop off).take 5000).length) :: tail) log.length
          (le_refl log.length), List.take_length]
      constructor
      · intro hle
        exact absurd hle (by omega)
      · intro _
        exact ⟨files, by rw [htake]; exact hres⟩
    · have hne : ¬(some k = some log.length) := fun hc => hkeq (Option.some.inj hc)
      have hklt : log.length < k := Nat.lt_of_le_of_ne hk (fun hc => hkeq hc.symm)
      split_ifs at h with h2 h3
      · cases h
        constructor
        · intro hle
          simp only [pageGo]
          rw [if_neg hne, if_pos h2]
        · intro hlt
          have hlt' : k < (log ++
              [(folder, off, ((entries.drop off).take 5000).length)]).length := hlt
          rw [List.length_append, List.length_cons, List.length_nil] at hlt'
          exact absurd hlt' (by omega)
      · cases h
        constructor
        · intro hle
          simp only [pageGo]
          rw [if_neg hne, if_neg h2, if_pos h3]
        · intro hlt
          have hlt' : k < (log ++
              [(folder, off, ((entries.drop off).take 5000).length)]).length := hlt
          rw [List.length_append, List.length_cons, List.length_nil] at hlt'
          exact absurd hlt' (by omega)
      · have hk' : (log ++
            [(folder, off, ((entries.drop off).take 5000).length)]).length ≤ k := by
          rw [List.length_append, List.length_cons, List.length_nil]
          omega
        have hsim := ih (off + 5000) _ _ _ _ st sds' rem' hk' h
        constructor
        · intro hle
          simp only [pageGo]
          rw [if_neg hne, if_neg h2, if_neg h3]
          exact hsim.1 hle
        · intro hlt
          obtain ⟨fI, hfI⟩ := hsim.2 hlt
          refine ⟨fI, ?_⟩
          simp only [pageGo]
          rw [if_neg hne, if_neg h2, if_neg h3]
          exact hfI

theorem scanLoop_cancel_sim (L : String → List Entry)
    (tf : Option (List (String × Int))) (tol : Int) (k : Nat) :
    ∀ (fuel : Nat) (stack : List String) (files : List (String × NasRec))
      (log : List Fetch) (rem : Option (List String)) (r0 : NasResult),
      log.length ≤ k →
      scanLoop L none tf tol fuel stack files log rem = some r0 →
      (r0.log.length ≤ k →
        scanLoop L (some k) tf tol fuel stack files log rem = some r0) ∧
      (k < r0.log.length →
        ∃ fI lf, scanLoop L (some k) tf tol fuel stack files log rem =
          some ⟨fI, true, r0.log.take k, lf⟩) := by
  intro fuel
  induction fuel with
  | zero => intro stack files log rem r0 hk h; simp [scanLoop] at h
  | succ m ih =>
    intro stack files log rem r0 hk h
    cases hl : stack.getLast? with
    | none =>
      simp only [scanLoop, hl] at h
      obtain rfl : (⟨files, false, log, []⟩ : NasResult) = r0 := by simpa using h
      constructor
      · intro hle
        simp only [scanLoop, hl]
      · intro hlt
        have hlt' : k < log.length := hlt
        exact absurd hlt' (by omega)
    | some folder =>
      simp only [scanLoop, pageLoop, hl] at h
      cases hp : pageGo none tf tol folder (L folder) ((L folder).length / 5000 + 1) 0
          files log rem [] with
      | interrupted st =>
        exfalso
        have hia := pageGo_interrupted_ia none tf tol folder (L folder) _ _ _ _ _ _ _ hp
        simp at hia
      | fuelOut =>
        rw [hp] at h
        have h' : (none : Option NasResult) = some r0 := h
        simp at h'
      | done st subdirs rem' =>
        rw [hp] at h
        have h' : (if rem' = some [] then
            some (⟨st.files, false, st.log, stack.dropLast⟩ : NasResult)
          else scanLoop L none tf tol m (stack.dropLast ++ sortStrings subdirs) st.files
            st.log rem') = some r0 := h
        have hsim := pageGo_cancel_sim tf tol folder (L folder) k
          ((L folder).length / 5000 + 1) 0 files log rem [] st subdirs rem' hk hp
        by_cases hkst : st.log.length ≤ k
        · have hpk : pageLoop (some k) tf tol folder (L folder) files log rem =
              .done st subdirs rem' := hsim.1 hkst
          have hstep := scanLoop_step_done L (some k) tf tol m stack folder files log
            rem st subdirs rem' hl hpk
          by_cases he : rem' = some []
          · rw [if_pos he] at h'
            obtain rfl : (⟨st.files, false, st.log, stack.dropLast⟩ : NasResult) = r0 :=
              Option.some.inj h'
            constructor
            · intro hle
              rw [hstep, if_pos he]
            · intro hlt
              have hlt' : k < st.log.length := hlt
              exact absurd hlt' (by omega)
          · rw [if_neg he] at h'
            have hrec := ih (stack.dropLast ++ sortStrings subdirs) st.files st.log
              rem' r0 hkst h'
            constructor
            · intro hle
              rw [hstep, if_neg he]
              exact hrec.1 hle
            · intro hlt
              obtain ⟨fI, lf, hres⟩ := hrec.2 hlt
              refine ⟨fI, lf, ?_⟩
              rw [hstep, if_neg he]
              exact hres
        · have hklt : k < st.log.length := Nat.lt_of_not_le hkst
          obtain ⟨fI, hpk⟩ := hsim.2 hklt
          have hpk' : pageLoop (some k) tf tol folder (L folder) files log rem =
              .interrupted ⟨fI, st.log.take k⟩ := hpk
          have hstep := scanLoop_step_interrupted L (some k) tf tol m stack folder files
            log rem ⟨fI, st.log.take k⟩ hl hpk'
          have hext : ∃ tail, r0.log = st.log ++ tail := by
            by_cases he : rem' = some []
            · rw [if_pos he] at h'
              obtain rfl : (⟨st.files, false, st.log, stack.dropLast⟩ : NasResult) =
                  r0 := Option.some.inj h'
              exact ⟨[], (List.append_nil st.log).symm⟩
            · rw [if_neg he] at h'
              exact scanLoop_log_extend L none tf tol m _ st.files st.log rem' r0 h'
          obtain ⟨tail, hr0log⟩ := hext
          have hlen0 : r0.log.length = st.log.length + tail.length := by
            rw [hr0log, List.length_append]
          have htake : r0.log.take k = st.log.take k := by
            rw [hr0log, take_append_left _ _ _ (Nat.le_of_lt hklt)]
          constructor
          · intro hle
            exact absurd hle (by omega)
          · intro _
            refine ⟨fI, stack.dropLast, ?_⟩
            rw [hstep, htake]

theorem replay_snoc (L : String → List Entry) (tf : Option (List (String × Int)))
    (tol : Int) (lg : List Fetch) (f : Fetch) :
    replay L tf tol (lg ++ [f]) = replayP L tf tol (replay L tf tol lg) f := by
  simp only [replay, List.foldl_append, List.foldl_cons, List.foldl_nil]

theorem pageGo_replay (L : String → List Entry) (ia : Option Nat)
    (tf : Option (List (String × Int))) (tol : Int) (folder : String) :
    ∀ (pf off : Nat) (files : List (String × NasRec)) (log : List Fetch)
      (rem : Option (List String)) (sds : List String),
      (files, rem) = replay L tf tol log →
      (∀ st, pageGo ia tf tol folder (L folder) pf off files log rem sds =
          .interrupted st → ∃ rem₂, (st.files, rem₂) = replay L tf tol st.log) ∧
      (∀ st sds' rem', pageGo ia tf tol folder (L folder) pf off files log rem sds =
          .done st sds' rem' → (st.files, rem') = replay L tf tol st.log) := by
  intro pf
  induction pf with
  | zero =>
    intro off files log rem sds hrep
    constructor
    · intro st h
      simp [pageGo] at h
    · intro st sds' rem' h
      simp [pageGo] at h
  | succ m ih =>
    intro off files log rem sds hrep
    have hrepx : replay L tf tol
        (log ++ [(folder, off, (((L folder).drop off).take 5000).length)]) =
        (((((L folder).drop off).take 5000).foldl (processItem tf tol folder)
            (files, rem, [])).1,
         ((((L folder).drop off).take 5000).foldl (processItem tf tol folder)
            (files, rem, [])).2.1) := by
      rw [replay_snoc, ← hrep]
      have hrfl : replayP L tf tol (files, rem)
          (folder, off, (((L folder).drop off).take 5000).length) =
          (((((L folder).drop off).take (((L folder).drop off).take 5000).length).foldl
              (processItem tf tol folder) (files, rem, [])).1,
           ((((L folder).drop off).take (((L folder).drop off).take 5000).length).foldl
              (processItem tf tol folder) (files, rem, [])).2.1) := rfl
      rw [hrfl, take_length_take]
    have hsds := items_fold_sds_indep tf tol folder (((L folder).drop off).take 5000)
      files rem sds []
    have hrep' : (((((L folder).drop off).take 5000).foldl (processItem tf tol folder)
          (files, rem, sds)).1,
        ((((L folder).drop off).take 5000).foldl (processItem tf tol folder)
          (files, rem, sds)).2.1) =
        replay L tf tol
          (log ++ [(folder, off, (((L folder).drop off).take 5000).length)]) := by
      rw [hsds, hrepx]
    constructor
    · intro st h
      simp only [pageGo] at h
      split_ifs at h with h1 h2 h3
      all_goals first
        | exact (ih (off + 5000) _ _ _ _ hrep').1 st h
        | (cases h; exact ⟨rem, hrep⟩)
        | cases h
        | simp_all
    · intro st sds' rem' h
      simp only [pageGo] at h
      split_ifs at h with h1 h2 h3
      all_goals first
        | exact (ih (off + 5000) _ _ _ _ hrep').2 st sds' rem' h
        | (cases h; exact hrep')
        | (cases h
           show (files, rem) = replay L tf tol
             (log ++ [(folder, off, (((L folder).drop off).take 5000).length)])
           rw [hrepx, h2, List.foldl_nil])
        | cases h
        | simp_all

theorem scanLoop_replay (L : String → List Entry) (ia : Option Nat)
    (tf : Option (List (String × Int))) (tol : Int) :
    ∀ (fuel : Nat) (stack : List String) (files : List (String × NasRec))
      (log : List Fetch) (rem : Option (List String)) (r : NasResult),
      (files, rem) = replay L tf tol log →
      scanLoop L ia tf tol fuel stack files log rem = some r →
      r.files = (replay L tf tol r.log).1 := by
  intro fuel
  induction fuel with
  | zero => intro stack files log rem r hrep h; simp [scanLoop] at h
  | succ m ih =>
    intro stack files log rem r hrep h
    cases hl : stack.getLast? with
    | none =>
      simp only [scanLoop, hl] at h
      obtain rfl : (⟨files, false, log, []⟩ : NasResult) = r := by simpa using h
      have h0 := congrArg Prod.fst hrep
      exact h0
    | some folder =>
      simp only [scanLoop, pageLoop, hl] at h
      cases hp : pageGo ia tf tol folder (L folder) ((L folder).length / 5000 + 1) 0
          files log rem [] with
      | interrupted st =>
        rw [hp] at h
        have h' : some (⟨st.files, true, st.log, stack.dropLast⟩ : NasResult) =
            some r := h
        obtain rfl : (⟨st.files, true, st.log, stack.dropLast⟩ : NasResult) = r :=
          Option.some.inj h'
        obtain ⟨rem₂, hrep2⟩ := (pageGo_replay L ia tf tol folder _ 0 files log rem []
          hrep).1 st hp
        have h0 := congrArg Prod.fst hrep2
        exact h0
      | fuelOut =>
        rw [hp] at h
        have h' : (none : Option NasResult) = some r := h
        simp at h'
      | done st subdirs rem' =>
        rw [hp] at h
        have h' : (if rem' = some [] then
            some (⟨st.files, false, st.log, stack.dropLast⟩ : NasResult)
          else scanLoop L ia tf tol m (stack.dropLast ++ sortStrings subdirs) st.files
            st.log rem') = some r := h
        have hrep2 := (pageGo_replay L ia tf tol folder _ 0 files log rem [] hrep).2
          st subdirs rem' hp
        by_cases he : rem' = some []
        · rw [if_pos he] at h'
          obtain rfl : (⟨st.files, false, st.log, stack.dropLast⟩ : NasResult) = r :=
            Option.some.inj h'
          have h0 := congrArg Prod.fst hrep2
          exact h0
        · rw [if_neg he] at h'
          exact ih _ _ _ _ _ hrep2 h'

theorem scan_files_replay (L : String → List Entry) (ia : Option Nat) (root : String)
    (tf : Option (List (String × Int))) (tol : Int) (fuel : Nat) (r : NasResult)
    (h : scan_nas_folder L ia root tf tol fuel = some r) :
    r.files = (replay L tf tol r.log).1 :=
  scanLoop_replay L ia tf tol fuel [root] [] [] _ r rfl h

/-- C2: (i) an uncancelled remote scan never reports interruption;
(ii) a scan reporting interruption stopped exactly at the cancellation
point; (iii) a completed scan that left stack folders unvisited did so
only because targets were supplied and every target key was matched
within tolerance; (iv) when the current folder's pages drain with the
remaining set empty, the scan returns immediately with
`wasInterrupted = false`, abandoning the rest of the stack; (v) in an
uncancelled run, a drained folder's pages are fetched completely — the
early-exit check happens only after the full page schedule of the
folder; (vi) a cancellation delivered at fetch `k` of a scan that would
otherwise perform more than `k` fetches makes the scan return
`wasInterrupted = true` together with the index accumulated so far: its
fetch log is exactly the first `k` fetches of the uncancelled run and
its files are exactly the index obtained by processing those `k`
fetched pages, while a cancellation arriving at or after the last fetch
leaves the result identical to the uncancelled run. -/
theorem c2_early_exit_and_interruption :
    (∀ (L : String → List Entry) (root : String) (tf : Option (List (String × Int)))
        (tol : Int) (fuel : Nat) (r : NasResult),
      scan_nas_folder L none root tf tol fuel = some r → r.interrupted = false) ∧
    (∀ (L : String → List Entry) (ia : Option Nat) (root : String)
        (tf : Option (List (String × Int))) (tol : Int) (fuel : Nat) (r : NasResult),
      scan_nas_folder L ia root tf tol fuel = some r → r.interrupted = true →
      ia = some r.log.length) ∧
    (∀ (L : String → List Entry) (ia : Option Nat) (root : String)
        (tf : Option (List (String × Int))) (tol : Int) (fuel : Nat) (r : NasResult),
      ((tf.getD []).map Prod.fst).Nodup →
      scan_nas_folder L ia root tf tol fuel = some r →
      r.interrupted = false → r.leftover ≠ [] →
      tf.getD [] ≠ [] ∧ ∀ kt ∈ tf.getD [], matchedIn r.files kt.1 kt.2 tol) ∧
    (∀ (L : String → List Entry) (ia : Option Nat) (tf : Option (List (String × Int)))
        (tol : Int) (fuel : Nat) (stack : List String) (folder : String)
        (files : List (String × NasRec)) (log : List Fetch)
        (rem : Option (List String)) (st : ScanSt) (subdirs : List String),
      stack.getLast? = some folder →
      pageLoop ia tf tol folder (L folder) files log rem = .done st subdirs (some []) →
      scanLoop L ia tf tol (fuel + 1) stack files log rem =
        some ⟨st.files, false, st.log, stack.dropLast⟩) ∧
    (∀ (tf : Option (List (String × Int))) (tol : Int) (folder : String)
        (entries : List Entry) (files : List (String × NasRec)) (log : List Fetch)
        (rem : Option (List String)) (st : ScanSt) (subdirs : List String)
        (rem' : Option (List String)),
      pageLoop none tf tol folder entries files log rem = .done st subdirs rem' →
      ∃ tail, st.log = log ++ tail ∧ tail.length = entries.length / 5000 + 1 ∧
        ∀ x ∈ tail, x.1 = folder) ∧
    (∀ (L : String → List Entry) (root : String) (tf : Option (List (String × Int)))
        (tol : Int) (fuel : Nat) (k : Nat) (r0 : NasResult),
      scan_nas_folder L none root tf tol fuel = some r0 →
      (r0.log.length ≤ k → scan_nas_folder L (some k) root tf tol fuel = some r0) ∧
      (k < r0.log.length →
        ∃ r, scan_nas_folder L (some k) root tf tol fuel = some r ∧
          r.interrupted = true ∧ r.log = r0.log.take k ∧
          r.files = (replay L tf tol (r0.log.take k)).1)) := by
  refine ⟨?_, ?_, ?_, ?_, ?_, ?_⟩
  · intro L root tf tol fuel r h
    exact scanLoop_none_not_interrupted L tf tol fuel [root] [] [] _ r h
  · intro L ia root tf tol fuel r h hint
    exact scanLoop_interrupted_ia L ia tf tol fuel [root] [] [] _ r h hint
  · intro L ia root tf tol fuel r hnodup h hint hlf
    by_cases htf : tf.getD [] = []
    · exfalso
      unfold scan_nas_folder at h
      rw [if_neg (fun hc => hc htf)] at h
      exact hlf (scanLoop_rem_none_leftover L ia tf tol fuel [root] [] [] r h hint)
    · refine ⟨htf, ?_⟩
      unfold scan_nas_folder at h
      rw [if_pos htf] at h
      exact scanLoop_target_early L ia tf tol hnodup fuel [root] [] []
        ((tf.getD []).map (fun x => x.1)) r
        (fun kt hkt => Or.inl (List.mem_map.mpr ⟨kt, hkt, rfl⟩)) h hint hlf
  · intro L ia tf tol fuel stack folder files log rem st subdirs hl hp
    rw [scanLoop_step_done L ia tf tol fuel stack folder files log rem st subdirs
      (some []) hl hp, if_pos rfl]
  · intro tf tol folder entries files log rem st subdirs rem' hp
    obtain ⟨st₀, sds₀, rem₀, heq, hlog⟩ := pageGo_done_full tf tol folder entries
      (entries.length / 5000 + 1) 0 files log rem [] (le_refl _)
    have hp' : pageGo none tf tol folder entries (entries.length / 5000 + 1) 0 files log
        rem [] = .done st subdirs rem' := hp
    have hcomb := heq.symm.trans hp'
    injection hcomb with ha hb hc
    refine ⟨fetchesOf folder entries.length 0, ?_, ?_, ?_⟩
    · rw [← ha]
      exact hlog
    · rw [fetchesOf_length, Nat.sub_zero]
    · exact fetchesOf_folder folder entries.length 0
  · intro L root tf tol fuel k r0 h
    unfold scan_nas_folder at h
    have hsim := scanLoop_cancel_sim L tf tol k fuel [root] [] [] _ r0
      (Nat.zero_le k) h
    constructor
    · intro hle
      unfold scan_nas_folder
      exact hsim.1 hle
    · intro hk
      obtain ⟨fI, lf, hres⟩ := hsim.2 hk
      have hres' : scan_nas_folder L (some k) root tf tol fuel =
          some ⟨fI, true, r0.log.take k, lf⟩ := by
        unfold scan_nas_folder
        exact hres
      refine ⟨⟨fI, true, r0.log.take k, lf⟩, hres', rfl, rfl, ?_⟩
      exact scan_files_replay L (some k) root tf tol fuel
        ⟨fI, true, r0.log.take k, lf⟩ hres'

/-- C2 witness: (early exit) a single target satisfied by the root
folder makes the scan return right after the root's pages, never
fetching the subdirectory, with no interruption reported;
(cancellation) the same tree scanned without targets and cancelled at
fetch 1 — before the subdirectory is fetched — returns
`wasInterrupted = true` together with the one-fetch prefix of the full
run's log and exactly the files accumulated by that first fetch. -/
theorem c2_early_exit_and_interruption_witness :
    (scan_nas_folder listingC2 none "/r" (some [("t.jpg", (105 : Int))]) 10 5 =
      some ⟨[("t.jpg", (1, 100, "/r"))], false, [("/r", 0, 2)], []⟩) ∧
    (∃ r, scan_nas_folder listingC2 (some 1) "/r" none 10 5 = some r ∧
      r.interrupted = true ∧
      r.log = (⟨[("t.jpg", (1, 100, "/r")), ("z.jpg", (9, 9, "/r/d"))], false,
        [("/r", 0, 2), ("/r/d", 0, 1)], []⟩ : NasResult).log.take 1 ∧
      r.files = (replay listingC2 none 10
        ((⟨[("t.jpg", (1, 100, "/r")), ("z.jpg", (9, 9, "/r/d"))], false,
          [("/r", 0, 2), ("/r/d", 0, 1)], []⟩ : NasResult).log.take 1)).1) := by
  constructor
  · exact c2_early_exit_and_interruption.2.2.2.1 listingC2 none
      (some [("t.jpg", (105 : Int))]) 10 4 ["/r"] "/r" [] []
      (some ["t.jpg"]) ⟨[("t.jpg", (1, 100, "/r"))], [("/r", 0, 2)]⟩ ["/r/d"] rfl
      (by decide)
  · exact (c2_early_exit_and_interruption.2.2.2.2.2 listingC2 "/r" none 10 5 1
      ⟨[("t.jpg", (1, 100, "/r")), ("z.jpg", (9, 9, "/r/d"))], false,
        [("/r", 0, 2), ("/r/d", 0, 1)], []⟩ (by decide)).2 (by decide)

/-! ### Multi-root merge: claim C9 -/

/-- C9: merging per-root scan results with `nas_files.update(...)` keeps,
for each key, the most recent root's record (the general law, under the
per-scan invariant that keys are unique), and on the concrete two-root
input this replaces root 1's within-tolerance record for `a.jpg` by
root 2's record 4000 seconds off — `compare_files` then reports `a.jpg`
missing even though root 1 holds a matching copy. -/
theorem c9_later_root_overwrites_match :
    (mainNasLoop listingC9 none [("a.jpg", 1000), ("b.jpg", 2000)] 5 ["/r1", "/r2"] [] =
      some ([("a.jpg", (2, 5000, "/r2")), ("b.jpg", (3, 2000, "/r2"))], false)) ∧
    listingC9 "/r1" = [⟨"A.jpg", "/r1/A.jpg", false, 1, 1000⟩] ∧
    (|(1000 : Int) - 1000| ≤ 10) ∧
    ¬(|(5000 : Int) - 1000| ≤ 10) ∧
    (compare_files
        [("a.jpg", ("a.jpg", 10, 1000, "/sd/a.jpg")), ("b.jpg", ("b.jpg", 11, 2000, "/sd/b.jpg"))]
        [("a.jpg", (2, 5000, "/r2")), ("b.jpg", (3, 2000, "/r2"))] none 10).2.2 =
      [("a.jpg", 10, 1000, "/sd/a.jpg")] ∧
    (∀ (d e : List (String × NasRec)) (a : String), (e.map Prod.fst).Nodup →
      (dictUpdate d e).lookup a =
        if (e.lookup a).isSome then e.lookup a else d.lookup a) := by
  refine ⟨by decide, by decide, by decide, by decide, by rfl, ?_⟩
  intro d e a hnd
  exact lookup_dictUpdate d e a hnd

/-- C9 witness for the general merge law at a concrete merge. -/
theorem c9_later_root_overwrites_match_witness :
    (dictUpdate [("a.jpg", ((1 : Int), (1000 : Int), "/r1"))]
        [("a.jpg", ((2 : Int), (5000 : Int), "/r2"))]).lookup "a.jpg" =
      if (([("a.jpg", ((2 : Int), (5000 : Int), "/r2"))].lookup "a.jpg")).isSome then
        [("a.jpg", ((2 : Int), (5000 : Int), "/r2"))].lookup "a.jpg"
      else [("a.jpg", ((1 : Int), (1000 : Int), "/r1"))].lookup "a.jpg" :=
  c9_later_root_overwrites_match.2.2.2.2.2
    [("a.jpg", ((1 : Int), (1000 : Int), "/r1"))]
    [("a.jpg", ((2 : Int), (5000 : Int), "/r2"))] "a.jpg" (by decide)

end Checker
